import Mathlib

/-! Bitset core of igraph (`src/core/bitset.c`).

A shallow embedding of the bitset container and its operations.

* A storage word (`igraph_integer_t` used as a bit slot) is the natural number of its
  64-bit two's-complement bit pattern, so it is `< 2 ^ 64`; `~zero` is `2 ^ 64 - 1`.
* Sizes, loop counters and results are `Int`, as `igraph_integer_t` is signed; C division
  and remainder are `Int.tdiv` and `Int.tmod`. The size of a bitset whose storage exists is
  far below `2 ^ 63`, so this arithmetic does not overflow and is left unbounded.
* `VECTOR(*bitset)[i]` is an `Option`-returning read: `none` stands for a read through a
  NULL `stor_begin` or outside the allocated block (undefined behaviour in C).
* A counted `for` loop is a function recursive in the number of iterations left.
* `igraph_bitset_popcount` shifts the `int` literal `1`; a shift of a 32-bit `int` by 32 or
  more is undefined in C, so the value it yields is a parameter `ub` of the model, and the
  statements about the function hold for every `ub` unless they name a platform.
-/

namespace Bitset

/-! ## Data model -/

/-- The C struct `igraph_bitset_t`: `size`, `stor_begin` (`none` is NULL, `some ws` is a
pointer to the block holding the words `ws`) and `stor_end` (kept as the offset, in words,
from the start of the block). -/
structure igraph_bitset_t where
  size : Int
  stor_begin : Option (List Nat)
  stor_end : Int
deriving DecidableEq, Repr

/-- Modelled from the spec: the macro `IGRAPH_INTEGER_SIZE` (the spec's `WORD_BITS`, the
width of `igraph_integer_t`) is declared in a header that is not part of the shown source;
the spec gives 64 as the native word width. -/
def IGRAPH_INTEGER_SIZE : Int := 64

/-- Modelled from the spec: the macro `IGRAPH_BITNSLOTS` is declared in the absent header
`igraph_bitset.h`; the spec says the word count is `ceil(size / WORD_BITS)`, computed in C
as `(size + WORD_BITS - 1) / WORD_BITS`. -/
def IGRAPH_BITNSLOTS (size : Int) : Int :=
  (size + IGRAPH_INTEGER_SIZE - 1).tdiv IGRAPH_INTEGER_SIZE

/-- The words of the storage block (no words behind a NULL pointer). -/
def words (b : igraph_bitset_t) : List Nat := b.stor_begin.getD []

/-- The read `VECTOR(*bitset)[i]`. -/
def VECTOR (b : igraph_bitset_t) (i : Int) : Option Nat :=
  match b.stor_begin with
  | none => none
  | some ws => if 0 ≤ i then ws[i.toNat]? else none

/-- The write `VECTOR(*bitset)[i] = w`. -/
def VECTOR_set (b : igraph_bitset_t) (i : Int) (w : Nat) : Option igraph_bitset_t :=
  match b.stor_begin with
  | none => none
  | some ws =>
    if 0 ≤ i ∧ i.toNat < ws.length then some { b with stor_begin := some (ws.set i.toNat w) }
    else none

/-! ## Machine arithmetic on words -/

/-- The bit pattern of `~x` for a 64-bit word. -/
def word_not (x : Nat) : Nat := x ^^^ (2 ^ 64 - 1)

/-- The bit pattern of `x << n` for a 64-bit word (high bits are shifted out). -/
def word_shl (x : Nat) (n : Int) : Nat := (x * 2 ^ n.toNat) % 2 ^ 64

/-- The bit pattern of `x - y` for 64-bit words, wrapping around. -/
def word_sub (x y : Nat) : Nat := (x + (2 ^ 64 - y % 2 ^ 64)) % 2 ^ 64

/-- The bit pattern of `1 << n` computed in the 32-bit type `int`. For `0 <= n < 32` it is
`2 ^ n` (for `n = 31` the sign bit). For any other `n` the C standard leaves the shift
undefined; `ub n` is the value the platform produces there, reduced to 32 bits. -/
def int_shl_one (ub : Int → Nat) (n : Int) : Nat :=
  if 0 ≤ n ∧ n < 32 then 2 ^ n.toNat % 2 ^ 32 else ub n % 2 ^ 32

/-- The bit pattern of `x - y` computed in the 32-bit type `int`, wrapping around. -/
def int_sub (x y : Nat) : Nat := (x + (2 ^ 32 - y % 2 ^ 32)) % 2 ^ 32

/-- The bit pattern of `~x` computed in the 32-bit type `int`. -/
def int_not (x : Nat) : Nat := x ^^^ (2 ^ 32 - 1)

/-- Conversion of an `int` to `igraph_integer_t`: sign extension from 32 to 64 bits. -/
def int_to_integer (x : Nat) : Nat :=
  if x < 2 ^ 31 then x else x + (2 ^ 64 - 2 ^ 32)

/-- A platform whose shift instruction uses the low five bits of the count
(x86-64, AArch64): `1 << n` is `1 << (n mod 32)`. -/
def ub_count_masked (n : Int) : Nat := 2 ^ (n.toNat % 32)

/-- A platform on which a bit shifted past the width is lost (register shifts of 32-bit ARM
and of PowerPC): `1 << n` is 0 for `n >= 32`. -/
def ub_shifted_out (_n : Int) : Nat := 0

/-! ## Word primitives -/

/-- Modelled from the spec: the macro `IGRAPH_POPCOUNT` is declared in the absent header;
the spec calls it the population count of a word. -/
def IGRAPH_POPCOUNT (w : Nat) : Nat := (List.range 64).countP (fun k => w.testBit k)

/-- Number of consecutive 0 bits of `w` at positions `n - 1`, `n - 2`, ... -/
def clz_below (w : Nat) : Nat → Nat
  | 0 => 0
  | n + 1 => if w.testBit n then 0 else clz_below w n + 1

/-- Number of consecutive 0 bits of `w` at positions `k`, `k + 1`, ..., at most `n`. -/
def ctz_from (w : Nat) : Nat → Nat → Nat
  | 0, _ => 0
  | n + 1, k => if w.testBit k then 0 else ctz_from w n (k + 1) + 1

/-- Modelled from the spec: the macro `IGRAPH_CLZ` is declared in the absent header; the
spec calls it the count of leading zero bits of a word. -/
def IGRAPH_CLZ (w : Nat) : Nat := clz_below w 64

/-- Modelled from the spec: the macro `IGRAPH_CLO` is declared in the absent header; the
spec calls it the count of leading one bits of a word, equivalently the leading zeros of
the complement. -/
def IGRAPH_CLO (w : Nat) : Nat := IGRAPH_CLZ (word_not w)

/-- Modelled from the spec: the macro `IGRAPH_CTZ` is declared in the absent header; the
spec calls it the count of trailing zero bits of a word. -/
def IGRAPH_CTZ (w : Nat) : Nat := ctz_from w 64 0

/-- Modelled from the spec: the macro `IGRAPH_CTO` is declared in the absent header; the
spec calls it the count of trailing one bits of a word. -/
def IGRAPH_CTO (w : Nat) : Nat := IGRAPH_CTZ (word_not w)

/-! ## Population count -/

/-- The line `final_block_size = size % IGRAPH_INTEGER_SIZE ? size % IGRAPH_INTEGER_SIZE :
IGRAPH_INTEGER_SIZE` shared by the five queries. -/
def final_block_size (b : igraph_bitset_t) : Int :=
  if b.size.tmod IGRAPH_INTEGER_SIZE ≠ 0 then b.size.tmod IGRAPH_INTEGER_SIZE
  else IGRAPH_INTEGER_SIZE

/-- The loop `for (i = 0; i + 1 < slots; ++i) count += IGRAPH_POPCOUNT(VECTOR(*bitset)[i])`
of `igraph_bitset_popcount`, with `n` iterations left. -/
def popcount_loop (b : igraph_bitset_t) : Nat → Int → Int → Option Int
  | 0, _, count => some count
  | n + 1, i, count =>
    match VECTOR b i with
    | none => none
    | some w => popcount_loop b n (i + 1) (count + IGRAPH_POPCOUNT w)

/-- The mask of `igraph_bitset_popcount`:
`final_block_size == IGRAPH_INTEGER_SIZE ? ~0 : ((1 << final_block_size) - 1)`. Unlike the
masks of the four run-length queries, which use the `igraph_integer_t` constants `one` and
`zero`, it is written with the `int` literals `0` and `1`: it is computed in the type `int`
and converted to `igraph_integer_t` afterwards. -/
def popcount_mask (ub : Int → Nat) (b : igraph_bitset_t) : Nat :=
  if final_block_size b = IGRAPH_INTEGER_SIZE then int_to_integer (int_not 0)
  else int_to_integer (int_sub (int_shl_one ub (final_block_size b)) 1)

/-- The function `igraph_bitset_popcount`; `ub` is the platform's result for an `int` shift
by 32 or more (see `int_shl_one`). -/
def igraph_bitset_popcount (ub : Int → Nat) (b : igraph_bitset_t) : Option Int :=
  let slots := IGRAPH_BITNSLOTS b.size
  let mask := popcount_mask ub b
  match popcount_loop b (slots - 1).toNat 0 0 with
  | none => none
  | some count =>
    if b.size ≠ 0 then
      match VECTOR b (slots - 1) with
      | none => none
      | some w => some (count + IGRAPH_POPCOUNT (mask &&& w))
    else some count

/-! ## Leading and trailing run lengths -/

/-- The mask of `igraph_bitset_countl_zero` and `igraph_bitset_countr_zero`:
`final_block_size == IGRAPH_INTEGER_SIZE ? ~zero : ((one << final_block_size) - one)`. -/
def mask_zero (b : igraph_bitset_t) : Nat :=
  if final_block_size b = IGRAPH_INTEGER_SIZE then word_not 0
  else word_sub (word_shl 1 (final_block_size b)) 1

/-- The mask of `igraph_bitset_countl_one` and `igraph_bitset_countr_one`:
`final_block_size == IGRAPH_INTEGER_SIZE ? zero : ~((one << final_block_size) - one)`. -/
def mask_one (b : igraph_bitset_t) : Nat :=
  if final_block_size b = IGRAPH_INTEGER_SIZE then 0
  else word_not (word_sub (word_shl 1 (final_block_size b)) 1)

/-- The loop `for (i = 1; i < slots; ++i)` of `igraph_bitset_countl_zero`, with `n`
iterations left. -/
def countl_zero_loop (b : igraph_bitset_t) (slots padding : Int) : Nat → Int → Option Int
  | 0, _ => some b.size
  | n + 1, i =>
    match VECTOR b (slots - i - 1) with
    | none => none
    | some w =>
      if w ≠ 0 then some (IGRAPH_INTEGER_SIZE * i + IGRAPH_CLZ w - padding)
      else countl_zero_loop b slots padding n (i + 1)

/-- The function `igraph_bitset_countl_zero`. -/
def igraph_bitset_countl_zero (b : igraph_bitset_t) : Option Int :=
  let padding := IGRAPH_INTEGER_SIZE - final_block_size b
  let slots := IGRAPH_BITNSLOTS b.size
  let mask := mask_zero b
  let rest := countl_zero_loop b slots padding (slots - 1).toNat 1
  if b.size ≠ 0 then
    match VECTOR b (slots - 1) with
    | none => none
    | some w =>
      if mask &&& w ≠ 0 then some (IGRAPH_CLZ (mask &&& w) - padding) else rest
  else rest

/-- The loop `for (i = 1; i < slots; ++i)` of `igraph_bitset_countl_one`, with `n`
iterations left. -/
def countl_one_loop (b : igraph_bitset_t) (slots padding : Int) : Nat → Int → Option Int
  | 0, _ => some b.size
  | n + 1, i =>
    match VECTOR b (slots - i - 1) with
    | none => none
    | some w =>
      if w ≠ word_not 0 then some (IGRAPH_INTEGER_SIZE * i + IGRAPH_CLO w - padding)
      else countl_one_loop b slots padding n (i + 1)

/-- The function `igraph_bitset_countl_one`. -/
def igraph_bitset_countl_one (b : igraph_bitset_t) : Option Int :=
  let padding := IGRAPH_INTEGER_SIZE - final_block_size b
  let slots := IGRAPH_BITNSLOTS b.size
  let mask := mask_one b
  let rest := countl_one_loop b slots padding (slots - 1).toNat 1
  if b.size ≠ 0 then
    match VECTOR b (slots - 1) with
    | none => none
    | some w =>
      if mask ||| w ≠ word_not 0 then some (IGRAPH_CLO (mask ||| w) - padding) else rest
  else rest

/-- The tail of `igraph_bitset_countr_zero` after its loop: the test of the masked last
word and the final `return bitset->size`. -/
def countr_zero_last (b : igraph_bitset_t) (slots : Int) : Option Int :=
  if b.size ≠ 0 then
    match VECTOR b (slots - 1) with
    | none => none
    | some w =>
      if mask_zero b &&& w ≠ 0 then
        some (IGRAPH_INTEGER_SIZE * (slots - 1) + IGRAPH_CTZ (mask_zero b &&& w))
      else some b.size
  else some b.size

/-- The loop `for (i = 0; i + 1 < slots; ++i)` of `igraph_bitset_countr_zero`, with `n`
iterations left, followed by the rest of the function. -/
def countr_zero_loop (b : igraph_bitset_t) (slots : Int) : Nat → Int → Option Int
  | 0, _ => countr_zero_last b slots
  | n + 1, i =>
    match VECTOR b i with
    | none => none
    | some w =>
      if w ≠ 0 then some (IGRAPH_INTEGER_SIZE * i + IGRAPH_CTZ w)
      else countr_zero_loop b slots n (i + 1)

/-- The function `igraph_bitset_countr_zero`. -/
def igraph_bitset_countr_zero (b : igraph_bitset_t) : Option Int :=
  let slots := IGRAPH_BITNSLOTS b.size
  countr_zero_loop b slots (slots - 1).toNat 0

/-- The tail of `igraph_bitset_countr_one` after its loop. -/
def countr_one_last (b : igraph_bitset_t) (slots : Int) : Option Int :=
  if b.size ≠ 0 then
    match VECTOR b (slots - 1) with
    | none => none
    | some w =>
      if mask_one b ||| w ≠ word_not 0 then
        some (IGRAPH_INTEGER_SIZE * (slots - 1) + IGRAPH_CTO (mask_one b ||| w))
      else some b.size
  else some b.size

/-- The loop `for (i = 0; i + 1 < slots; ++i)` of `igraph_bitset_countr_one`, with `n`
iterations left, followed by the rest of the function. -/
def countr_one_loop (b : igraph_bitset_t) (slots : Int) : Nat → Int → Option Int
  | 0, _ => countr_one_last b slots
  | n + 1, i =>
    match VECTOR b i with
    | none => none
    | some w =>
      if w ≠ word_not 0 then some (IGRAPH_INTEGER_SIZE * i + IGRAPH_CTO w)
      else countr_one_loop b slots n (i + 1)

/-- The function `igraph_bitset_countr_one`. -/
def igraph_bitset_countr_one (b : igraph_bitset_t) : Option Int :=
  let slots := IGRAPH_BITNSLOTS b.size
  countr_one_loop b slots (slots - 1).toNat 0

/-! ## Bitwise combinators -/

/-- The loop `for (i = 0; i < IGRAPH_BITNSLOTS(dest->size); ++i)
VECTOR(*dest)[i] = VECTOR(*src1)[i] op VECTOR(*src2)[i]` shared, up to the word operation
`op`, by `igraph_bitset_or`, `igraph_bitset_and` and `igraph_bitset_xor`, with `n`
iterations left. Iteration `i` reads the sources at index `i` only and so is not affected
by the earlier writes when `dest` is one of the sources. -/
def binary_loop (op : Nat → Nat → Nat) (src1 src2 : igraph_bitset_t) :
    Nat → Int → igraph_bitset_t → Option igraph_bitset_t
  | 0, _, dest => some dest
  | n + 1, i, dest =>
    match VECTOR src1 i, VECTOR src2 i with
    | some x, some y =>
      match VECTOR_set dest i (op x y) with
      | none => none
      | some dest1 => binary_loop op src1 src2 n (i + 1) dest1
    | _, _ => none

/-- The function `igraph_bitset_or`. -/
def igraph_bitset_or (dest src1 src2 : igraph_bitset_t) : Option igraph_bitset_t :=
  binary_loop (fun x y => x ||| y) src1 src2 (IGRAPH_BITNSLOTS dest.size).toNat 0 dest

/-- The function `igraph_bitset_and`. -/
def igraph_bitset_and (dest src1 src2 : igraph_bitset_t) : Option igraph_bitset_t :=
  binary_loop (fun x y => x &&& y) src1 src2 (IGRAPH_BITNSLOTS dest.size).toNat 0 dest

/-- The function `igraph_bitset_xor`. -/
def igraph_bitset_xor (dest src1 src2 : igraph_bitset_t) : Option igraph_bitset_t :=
  binary_loop (fun x y => x ^^^ y) src1 src2 (IGRAPH_BITNSLOTS dest.size).toNat 0 dest

/-- The loop `for (i = 0; i < IGRAPH_BITNSLOTS(dest->size); ++i)
VECTOR(*dest)[i] = ~VECTOR(*src)[i]` of `igraph_bitset_not`, with `n` iterations left. -/
def not_loop (src : igraph_bitset_t) : Nat → Int → igraph_bitset_t → Option igraph_bitset_t
  | 0, _, dest => some dest
  | n + 1, i, dest =>
    match VECTOR src i with
    | none => none
    | some x =>
      match VECTOR_set dest i (word_not x) with
      | none => none
      | some dest1 => not_loop src n (i + 1) dest1

/-- The function `igraph_bitset_not`. -/
def igraph_bitset_not (dest src : igraph_bitset_t) : Option igraph_bitset_t :=
  not_loop src (IGRAPH_BITNSLOTS dest.size).toNat 0 dest

/-! ## Lifecycle -/

/-- The error codes of `igraph_error_t` that the bitset functions return. -/
inductive igraph_error_t where
  | IGRAPH_SUCCESS
  | IGRAPH_ENOMEM
deriving DecidableEq, Repr

/-- Modelled from the spec: the macro `IGRAPH_CALLOC` belongs to the allocator, which is
not part of the shown source; the spec describes it as supplying zero-initialized buffers
of words or reporting out of memory. `alloc_ok` is the oracle that decides which. -/
def IGRAPH_CALLOC (alloc_ok : Bool) (n : Int) : Option (List Nat) :=
  if alloc_ok then some (List.replicate n.toNat 0) else none

/-- The function `igraph_bitset_init`: the returned pair is the error code and the bitset
behind the pointer afterwards. `IGRAPH_CHECK_OOM` returns `IGRAPH_ENOMEM` when the pointer
just stored in `stor_begin` is NULL. -/
def igraph_bitset_init (alloc_ok : Bool) (bitset : igraph_bitset_t) (size : Int) :
    igraph_error_t × igraph_bitset_t :=
  let alloc_size := IGRAPH_BITNSLOTS size
  let bitset1 := { bitset with stor_begin := IGRAPH_CALLOC alloc_ok alloc_size }
  match bitset1.stor_begin with
  | none => (igraph_error_t.IGRAPH_ENOMEM, bitset1)
  | some _ =>
    (igraph_error_t.IGRAPH_SUCCESS, { bitset1 with size := size, stor_end := alloc_size })

/-- The function `igraph_bitset_destroy`. -/
def igraph_bitset_destroy (bitset : igraph_bitset_t) : igraph_bitset_t :=
  match bitset.stor_begin with
  | some _ => { bitset with size := 0, stor_begin := none }
  | none => bitset

/-! ## Logical view -/

/-- A well-formed bitset: `size >= 0`, non-NULL storage of exactly
`IGRAPH_BITNSLOTS(size)` words, each a 64-bit pattern; the padding bits of the last word
are not constrained. -/
def well_formed (b : igraph_bitset_t) : Prop :=
  0 ≤ b.size ∧ b.stor_begin.isSome = true ∧
    ((words b).length : Int) = IGRAPH_BITNSLOTS b.size ∧ ∀ w ∈ words b, w < 2 ^ 64

instance (b : igraph_bitset_t) : Decidable (well_formed b) := by
  unfold well_formed; infer_instance

/-- Logical bit `i` of a bitset: bit position `i mod 64` of word `i div 64`. -/
def bit (b : igraph_bitset_t) (i : Nat) : Bool :=
  ((words b).getD (i / 64) 0).testBit (i % 64)

/-- The number of indices `i` with `0 <= i < size` whose bit is 1. -/
def count_ones (b : igraph_bitset_t) : Nat :=
  (List.range b.size.toNat).countP (fun i => bit b i)

/-- The bitset with every storage word complemented (what `igraph_bitset_not` stores when
the destination has the source's size). -/
def complement (b : igraph_bitset_t) : igraph_bitset_t :=
  { b with stor_begin := b.stor_begin.map (fun ws => ws.map word_not) }

/-- The sum of the population counts of the words of a list. -/
def popcount_sum (ws : List Nat) : Nat := (ws.map IGRAPH_POPCOUNT).sum

/-! ## Words and their bits -/

theorem clz_below_all_zero (w : Nat) : ∀ n, (∀ j, j < n → w.testBit j = false) → clz_below w n = n
  | 0, _ => rfl
  | n + 1, h => by
    have h1 := h n (Nat.lt_succ_self n)
    have h2 := clz_below_all_zero w n (fun j hj => h j (Nat.lt_succ_of_lt hj))
    simp [clz_below, h1, h2]

theorem clz_below_top (w h : Nat) (hb : w.testBit h = true) :
    ∀ n, h < n → (∀ j, h < j → j < n → w.testBit j = false) → clz_below w n = n - 1 - h
  | 0, hn, _ => absurd hn (Nat.not_lt_zero h)
  | n + 1, hn, hz => by
    rcases Nat.lt_or_ge h n with hlt | hge
    · have h1 := hz n hlt (Nat.lt_succ_self n)
      have h2 := clz_below_top w h hb n hlt (fun j hj hjn => hz j hj (Nat.lt_succ_of_lt hjn))
      simp only [clz_below, h1, h2]
      simp
      omega
    · have : h = n := by omega
      subst this
      simp [clz_below, hb]

theorem ctz_from_all_zero (w : Nat) :
    ∀ n k, (∀ j, j < n → w.testBit (k + j) = false) → ctz_from w n k = n
  | 0, _, _ => rfl
  | n + 1, k, h => by
    have h1 : w.testBit k = false := by simpa using h 0 (Nat.succ_pos n)
    have h2 := ctz_from_all_zero w n (k + 1) (fun j hj => by
      have := h (j + 1) (Nat.succ_lt_succ hj)
      rwa [show k + (j + 1) = k + 1 + j by omega] at this)
    simp [ctz_from, h1, h2]

theorem ctz_from_low (w : Nat) :
    ∀ n k l, l < n → w.testBit (k + l) = true → (∀ j, j < l → w.testBit (k + j) = false) →
      ctz_from w n k = l
  | 0, _, l, hl, _, _ => absurd hl (Nat.not_lt_zero l)
  | n + 1, k, 0, _, hb, _ => by
    simp [ctz_from, show w.testBit k = true by simpa using hb]
  | n + 1, k, l + 1, hl, hb, hz => by
    have h1 : w.testBit k = false := by simpa using hz 0 (Nat.succ_pos l)
    have h2 := ctz_from_low w n (k + 1) l (Nat.lt_of_succ_lt_succ hl)
      (by rwa [show k + 1 + l = k + (l + 1) by omega])
      (fun j hj => by
        have := hz (j + 1) (Nat.succ_lt_succ hj)
        rwa [show k + (j + 1) = k + 1 + j by omega] at this)
    simp [ctz_from, h1, h2]

theorem word_eq_zero_of_bits (w : Nat) (hw : w < 2 ^ 64)
    (h : ∀ q, q < 64 → w.testBit q = false) : w = 0 := by
  apply Nat.eq_of_testBit_eq
  intro i
  rcases Nat.lt_or_ge i 64 with hi | hi
  · simp [h i hi]
  · have : w < 2 ^ i := Nat.lt_of_lt_of_le hw (Nat.pow_le_pow_right (by decide) hi)
    simp [Nat.testBit_lt_two_pow this]

theorem word_high_bit (w : Nat) (hw : w < 2 ^ 64) (i : Nat) (hi : 64 ≤ i) :
    w.testBit i = false :=
  Nat.testBit_lt_two_pow (Nat.lt_of_lt_of_le hw (Nat.pow_le_pow_right (by decide) hi))

theorem testBit_word_not (w : Nat) (hw : w < 2 ^ 64) (i : Nat) :
    (word_not w).testBit i = (decide (i < 64) && !w.testBit i) := by
  unfold word_not
  rw [Nat.testBit_xor, Nat.testBit_two_pow_sub_one]
  rcases Nat.lt_or_ge i 64 with hi | hi
  · simp [hi]
  · simp [word_high_bit w hw i hi, Nat.not_lt.mpr hi]

theorem word_not_lt (w : Nat) (hw : w < 2 ^ 64) : word_not w < 2 ^ 64 := by
  unfold word_not
  exact Nat.xor_lt_two_pow hw (by decide)

theorem word_not_not (w : Nat) : word_not (word_not w) = w := by
  unfold word_not
  rw [Nat.xor_assoc, Nat.xor_self, Nat.xor_zero]

theorem word_not_zero : word_not 0 = 2 ^ 64 - 1 := by decide

theorem word_not_eq_ones_iff (w : Nat) : word_not w = word_not 0 ↔ w = 0 := by
  constructor
  · intro h
    have := congrArg word_not h
    rwa [word_not_not w, word_not_not 0] at this
  · intro h; rw [h]

/-! ## Well-formed bitsets -/

theorem wf_stor {b : igraph_bitset_t} (h : well_formed b) : b.stor_begin = some (words b) := by
  obtain ⟨_, h2, _, _⟩ := h
  unfold words
  cases hb : b.stor_begin with
  | none => simp [hb] at h2
  | some ws => simp

theorem wf_slots {b : igraph_bitset_t} (h : well_formed b) :
    IGRAPH_BITNSLOTS b.size = (b.size + 63) / 64 := by
  obtain ⟨h1, _, _, _⟩ := h
  unfold IGRAPH_BITNSLOTS IGRAPH_INTEGER_SIZE
  rw [Int.tdiv_eq_ediv (by omega) (by decide)]
  congr 1
  omega

theorem wf_final_block_size {b : igraph_bitset_t} (h : well_formed b) :
    final_block_size b = if b.size % 64 ≠ 0 then b.size % 64 else 64 := by
  obtain ⟨h1, _, _, _⟩ := h
  unfold final_block_size IGRAPH_INTEGER_SIZE
  rw [Int.tmod_eq_emod h1 (by decide)]

theorem wf_length {b : igraph_bitset_t} (h : well_formed b) :
    ((words b).length : Int) = (b.size + 63) / 64 := by
  rw [← wf_slots h]; exact h.2.2.1

theorem wf_word_lt {b : igraph_bitset_t} (h : well_formed b) (k : Nat) :
    (words b).getD k 0 < 2 ^ 64 := by
  rcases Nat.lt_or_ge k (words b).length with hk | hk
  · rw [List.getD_eq_getElem _ _ hk]
    exact h.2.2.2 _ (List.getElem_mem hk)
  · rw [List.getD_eq_default _ _ hk]; decide

theorem VECTOR_nat {b : igraph_bitset_t} (h : well_formed b) (i : Int) (k : Nat)
    (hi : i = k) (hk : k < (words b).length) :
    VECTOR b i = some ((words b).getD k 0) := by
  subst hi
  unfold VECTOR
  rw [wf_stor h]
  simp [hk, List.getD_eq_getElem _ _ hk]

theorem bit_word (b : igraph_bitset_t) (k q : Nat) (hq : q < 64) :
    bit b (64 * k + q) = ((words b).getD k 0).testBit q := by
  unfold bit
  rw [show (64 * k + q) / 64 = k by omega, show (64 * k + q) % 64 = q by omega]

theorem word_shl_sub (f : Nat) (hf : f < 64) : word_sub (word_shl 1 (f : Int)) 1 = 2 ^ f - 1 := by
  unfold word_sub word_shl
  have h1 : (2:Nat) ^ f < 2 ^ 64 := Nat.pow_lt_pow_right (by decide) hf
  have h2 : 0 < (2:Nat) ^ f := Nat.pos_pow_of_pos _ (by decide)
  simp only [Int.toNat_ofNat, Nat.one_mul]
  generalize (2:Nat) ^ f = x at h1 h2
  omega

/-- Shape of a well-formed bitset of non-zero size: `L` full words and a last word with
`f` significant bits. -/
theorem wf_shape {b : igraph_bitset_t} (h : well_formed b) (hs : b.size ≠ 0) :
    ∃ L f : Nat, (words b).length = L + 1 ∧ 1 ≤ f ∧ f ≤ 64 ∧ b.size = 64 * (L : Int) + f ∧
      final_block_size b = f ∧ IGRAPH_BITNSLOTS b.size = (L : Int) + 1 := by
  have h1 := h.1
  have hl := wf_length h
  have hfb := wf_final_block_size h
  have hsl := wf_slots h
  refine ⟨((b.size - 1) / 64).toNat, (final_block_size b).toNat, ?_, ?_, ?_, ?_, ?_, ?_⟩
  · omega
  · rw [hfb]; split <;> omega
  · rw [hfb]; split <;> omega
  · rw [hfb]; split <;> omega
  · rw [hfb]; split <;> omega
  · omega

theorem wf_empty {b : igraph_bitset_t} (h : well_formed b) (hs : b.size = 0) :
    words b = [] ∧ IGRAPH_BITNSLOTS b.size = 0 := by
  have hl := wf_length h
  have hsl := wf_slots h
  rw [hs] at hl hsl
  constructor
  · apply List.eq_nil_of_length_eq_zero
    have : ((0:Int) + 63) / 64 = 0 := by decide
    omega
  · rw [hs] at *; rw [hsl]; decide

theorem mask_zero_eq {b : igraph_bitset_t} {f : Nat} (hf1 : 1 ≤ f) (hf : f ≤ 64)
    (hfb : final_block_size b = f) : mask_zero b = 2 ^ f - 1 := by
  unfold mask_zero IGRAPH_INTEGER_SIZE
  rw [hfb]
  split
  · next h =>
    have : f = 64 := by omega
    subst this; decide
  · next h =>
    have : f < 64 := by omega
    exact word_shl_sub f this

theorem mask_one_eq (b : igraph_bitset_t) : mask_one b = word_not (mask_zero b) := by
  unfold mask_one mask_zero
  split
  · rw [word_not_not]
  · rfl

theorem mask_zero_lt {b : igraph_bitset_t} {f : Nat} (hf1 : 1 ≤ f) (hf : f ≤ 64)
    (hfb : final_block_size b = f) : mask_zero b < 2 ^ 64 := by
  rw [mask_zero_eq hf1 hf hfb]
  have : (2:Nat) ^ f ≤ 2 ^ 64 := Nat.pow_le_pow_right (by decide) hf
  have h2 : 0 < (2:Nat) ^ f := Nat.pos_pow_of_pos _ (by decide)
  omega

theorem testBit_mask_and {b : igraph_bitset_t} {f : Nat} (hf1 : 1 ≤ f) (hf : f ≤ 64)
    (hfb : final_block_size b = f) (w q : Nat) :
    (mask_zero b &&& w).testBit q = (decide (q < f) && w.testBit q) := by
  rw [Nat.testBit_and, mask_zero_eq hf1 hf hfb, Nat.testBit_two_pow_sub_one]

theorem mask_and_lt (m w : Nat) (hw : w < 2 ^ 64) : m &&& w < 2 ^ 64 :=
  Nat.lt_of_le_of_lt Nat.and_le_right hw

/-! ## Leading zeros -/

theorem countl_zero_loop_all_zero {b : igraph_bitset_t} (h : well_formed b) (slots padding : Int)
    (hs : slots = (words b).length) :
    ∀ (n : Nat) (i : Int), (n : Int) + i = slots → 1 ≤ i →
      (∀ k, k < n → (words b).getD k 0 = 0) →
      countl_zero_loop b slots padding n i = some b.size
  | 0, _, _, _, _ => rfl
  | n + 1, i, hn, hi, hz => by
    have hv := VECTOR_nat h (slots - i - 1) n (by omega) (by omega)
    have h0 := hz n (Nat.lt_succ_self n)
    have ih := countl_zero_loop_all_zero h slots padding hs n (i + 1) (by omega) (by omega)
      (fun k hk => hz k (Nat.lt_succ_of_lt hk))
    simp only [countl_zero_loop, hv, h0]
    simpa using ih

theorem countl_zero_loop_hit {b : igraph_bitset_t} (h : well_formed b) (slots padding : Int)
    (hs : slots = (words b).length) (k : Nat) (hk0 : (words b).getD k 0 ≠ 0) :
    ∀ (n : Nat) (i : Int), (n : Int) + i = slots → 1 ≤ i → k < n →
      (∀ j, k < j → j < n → (words b).getD j 0 = 0) →
      countl_zero_loop b slots padding n i =
        some (IGRAPH_INTEGER_SIZE * (slots - 1 - k) + IGRAPH_CLZ ((words b).getD k 0) - padding)
  | 0, _, _, _, hk, _ => absurd hk (Nat.not_lt_zero k)
  | n + 1, i, hn, hi, hk, hz => by
    have hv := VECTOR_nat h (slots - i - 1) n (by omega) (by omega)
    rcases Nat.lt_or_ge k n with hlt | hge
    · have h0 := hz n hlt (Nat.lt_succ_self n)
      have ih := countl_zero_loop_hit h slots padding hs k hk0 n (i + 1) (by omega) (by omega) hlt
        (fun j hj hjn => hz j hj (Nat.lt_succ_of_lt hjn))
      simp only [countl_zero_loop, hv, h0]
      simpa using ih
    · have : k = n := by omega
      subst this
      simp only [countl_zero_loop, hv]
      rw [if_pos hk0]
      have : i = slots - 1 - (k : Int) := by omega
      rw [this]

theorem word_zero_of_bits_zero {b : igraph_bitset_t} (h : well_formed b) (k : Nat)
    (hz : ∀ q, q < 64 → bit b (64 * k + q) = false) : (words b).getD k 0 = 0 := by
  apply word_eq_zero_of_bits _ (wf_word_lt h k)
  intro q hq
  rw [← bit_word b k q hq]
  exact hz q hq

theorem word_ne_zero_of_bit {b : igraph_bitset_t} (i : Nat) (hb : bit b i = true) :
    (words b).getD (i / 64) 0 ≠ 0 := by
  intro h0
  unfold bit at hb
  rw [h0] at hb
  simp at hb

theorem masked_last_zero {b : igraph_bitset_t} (h : well_formed b) {L f : Nat}
    (hf1 : 1 ≤ f) (hf : f ≤ 64) (hfb : final_block_size b = f)
    (hz : ∀ q, q < f → bit b (64 * L + q) = false) :
    mask_zero b &&& (words b).getD L 0 = 0 := by
  apply word_eq_zero_of_bits _ (mask_and_lt _ _ (wf_word_lt h L))
  intro q hq
  rw [testBit_mask_and hf1 hf hfb]
  by_cases hqf : q < f
  · rw [← bit_word b L q hq, hz q hqf]; simp
  · simp [hqf]

theorem countl_zero_of_all_zero {b : igraph_bitset_t} (h : well_formed b)
    (hz : ∀ i : Nat, (i : Int) < b.size → bit b i = false) :
    igraph_bitset_countl_zero b = some b.size := by
  by_cases hs : b.size = 0
  · obtain ⟨_, hsl⟩ := wf_empty h hs
    unfold igraph_bitset_countl_zero
    rw [hsl]
    simp [hs, countl_zero_loop]
  · obtain ⟨L, f, hlen, hf1, hf, hsz, hfb, hsl⟩ := wf_shape h hs
    have hv := VECTOR_nat h (IGRAPH_BITNSLOTS b.size - 1) L (by omega) (by omega)
    have hm := masked_last_zero h hf1 hf hfb (L := L) (fun q hq => hz _ (by
      push_cast; omega))
    have hloop := countl_zero_loop_all_zero h (IGRAPH_BITNSLOTS b.size)
      (IGRAPH_INTEGER_SIZE - final_block_size b) (by omega) L 1 (by omega) (by decide)
      (fun k hk => word_zero_of_bits_zero h k (fun q hq => hz _ (by push_cast; omega)))
    unfold igraph_bitset_countl_zero
    simp only [hv, hm, if_pos hs]
    rw [hsl] at hloop ⊢
    simpa using hloop

theorem countl_zero_of_highest {b : igraph_bitset_t} (h : well_formed b) (t : Nat)
    (ht : (t : Int) < b.size) (hb : bit b t = true)
    (hz : ∀ j : Nat, t < j → (j : Int) < b.size → bit b j = false) :
    igraph_bitset_countl_zero b = some (b.size - 1 - t) := by
  have hs : b.size ≠ 0 := by omega
  obtain ⟨L, f, hlen, hf1, hf, hsz, hfb, hsl⟩ := wf_shape h hs
  have hv := VECTOR_nat h (IGRAPH_BITNSLOTS b.size - 1) L (by omega) (by omega)
  have htd : t = 64 * (t / 64) + t % 64 := by omega
  have hp : t % 64 < 64 := by omega
  have hwb : ((words b).getD (t / 64) 0).testBit (t % 64) = true := hb
  unfold igraph_bitset_countl_zero
  simp only [hv, if_pos hs]
  rcases Nat.lt_or_ge (t / 64) L with hk | hk
  · -- the highest 1 lies in a full word below the last one
    have hm := masked_last_zero h hf1 hf hfb (L := L) (fun q hq => hz _ (by omega) (by
      push_cast; omega))
    have hclz : IGRAPH_CLZ ((words b).getD (t / 64) 0) = 63 - t % 64 :=
      clz_below_top _ (t % 64) hwb 64 hp (fun j hj hj64 => by
        rw [← bit_word b (t / 64) j hj64]
        exact hz _ (by omega) (by push_cast; omega))
    have hloop := countl_zero_loop_hit h (IGRAPH_BITNSLOTS b.size)
      (IGRAPH_INTEGER_SIZE - final_block_size b) (by omega) (t / 64)
      (word_ne_zero_of_bit t hb) L 1 (by omega) (by decide) hk
      (fun j hj hjL => word_zero_of_bits_zero h j (fun q hq => hz _ (by omega) (by
        push_cast; omega)))
    simp only [hm]
    rw [hsl] at hloop ⊢
    simp only [ne_eq, not_true_eq_false, if_false, Int.add_sub_cancel, Int.toNat_ofNat]
    rw [hloop, hclz, hfb, hsz]
    unfold IGRAPH_INTEGER_SIZE
    congr 1
    omega
  · -- the highest 1 lies in the last word
    have hkL : t / 64 = L := by
      have : (t : Int) < 64 * (L : Int) + 64 := by omega
      omega
    have hpf : t % 64 < f := by
      have : (t : Int) < 64 * (L : Int) + f := by omega
      omega
    rw [hkL] at hwb
    have hmb : (mask_zero b &&& (words b).getD L 0).testBit (t % 64) = true := by
      rw [testBit_mask_and hf1 hf hfb, hwb]; simp [hpf]
    have hne : mask_zero b &&& (words b).getD L 0 ≠ 0 := by
      intro h0; rw [h0] at hmb; simp at hmb
    have hclz : IGRAPH_CLZ (mask_zero b &&& (words b).getD L 0) = 63 - t % 64 :=
      clz_below_top _ (t % 64) hmb 64 hp (fun j hj hj64 => by
        rw [testBit_mask_and hf1 hf hfb]
        by_cases hjf : j < f
        · rw [← bit_word b L j hj64, hz _ (by omega) (by push_cast; omega)]; simp
        · simp [hjf])
    rw [if_pos hne, hclz, hfb, hsz]
    unfold IGRAPH_INTEGER_SIZE
    congr 1
    omega

/-! ## Trailing zeros -/

theorem countr_zero_loop_all_zero {b : igraph_bitset_t} (h : well_formed b) (slots : Int)
    (hs : slots = (words b).length) :
    ∀ (n m : Nat), (n : Int) + m + 1 = slots →
      (∀ k, m ≤ k → k < m + n → (words b).getD k 0 = 0) →
      countr_zero_loop b slots n m = countr_zero_last b slots
  | 0, _, _, _ => rfl
  | n + 1, m, hn, hz => by
    have hv := VECTOR_nat h (m : Int) m rfl (by omega)
    have h0 := hz m (Nat.le_refl m) (by omega)
    have ih := countr_zero_loop_all_zero h slots hs n (m + 1) (by push_cast; omega)
      (fun k hk hkn => hz k (by omega) (by omega))
    simp only [countr_zero_loop, hv, h0]
    simpa using ih

theorem countr_zero_loop_hit {b : igraph_bitset_t} (h : well_formed b) (slots : Int)
    (hs : slots = (words b).length) (k : Nat) (hk0 : (words b).getD k 0 ≠ 0) :
    ∀ (n m : Nat), (n : Int) + m + 1 = slots → m ≤ k → k < m + n →
      (∀ j, m ≤ j → j < k → (words b).getD j 0 = 0) →
      countr_zero_loop b slots n m =
        some (IGRAPH_INTEGER_SIZE * (k : Int) + IGRAPH_CTZ ((words b).getD k 0))
  | 0, m, _, hmk, hk, _ => by omega
  | n + 1, m, hn, hmk, hk, hz => by
    have hv := VECTOR_nat h (m : Int) m rfl (by omega)
    rcases Nat.lt_or_ge m k with hlt | hge
    · have h0 := hz m (Nat.le_refl m) hlt
      have ih := countr_zero_loop_hit h slots hs k hk0 n (m + 1) (by push_cast; omega)
        (by omega) (by omega) (fun j hj hjk => hz j (by omega) hjk)
      simp only [countr_zero_loop, hv, h0]
      simpa using ih
    · have : k = m := by omega
      subst this
      simp only [countr_zero_loop, hv]
      rw [if_pos hk0]

theorem countr_zero_of_all_zero {b : igraph_bitset_t} (h : well_formed b)
    (hz : ∀ i : Nat, (i : Int) < b.size → bit b i = false) :
    igraph_bitset_countr_zero b = some b.size := by
  by_cases hs : b.size = 0
  · obtain ⟨_, hsl⟩ := wf_empty h hs
    unfold igraph_bitset_countr_zero
    rw [hsl]
    simp [hs, countr_zero_loop, countr_zero_last]
  · obtain ⟨L, f, hlen, hf1, hf, hsz, hfb, hsl⟩ := wf_shape h hs
    have hv := VECTOR_nat h (IGRAPH_BITNSLOTS b.size - 1) L (by omega) (by omega)
    have hm := masked_last_zero h hf1 hf hfb (L := L) (fun q hq => hz _ (by
      push_cast; omega))
    have hloop := countr_zero_loop_all_zero h (IGRAPH_BITNSLOTS b.size) (by omega) L 0
      (by omega)
      (fun k _ hk => word_zero_of_bits_zero h k (fun q hq => hz _ (by push_cast; omega)))
    unfold igraph_bitset_countr_zero
    rw [hsl] at hloop ⊢
    simp only [Int.add_sub_cancel, Int.toNat_ofNat]
    rw [show ((0 : Nat) : Int) = 0 from rfl] at hloop
    rw [hloop]
    unfold countr_zero_last
    rw [← hsl, hv]
    simp only [hm, if_pos hs]
    simp

theorem countr_zero_of_lowest {b : igraph_bitset_t} (h : well_formed b) (t : Nat)
    (ht : (t : Int) < b.size) (hb : bit b t = true)
    (hz : ∀ j : Nat, j < t → bit b j = false) :
    igraph_bitset_countr_zero b = some (t : Int) := by
  have hs : b.size ≠ 0 := by omega
  obtain ⟨L, f, hlen, hf1, hf, hsz, hfb, hsl⟩ := wf_shape h hs
  have hv := VECTOR_nat h (IGRAPH_BITNSLOTS b.size - 1) L (by omega) (by omega)
  have hp : t % 64 < 64 := by omega
  have hwb : ((words b).getD (t / 64) 0).testBit (t % 64) = true := hb
  unfold igraph_bitset_countr_zero
  rw [hsl]
  simp only [Int.add_sub_cancel, Int.toNat_ofNat]
  rcases Nat.lt_or_ge (t / 64) L with hk | hk
  · -- the lowest 1 lies in a full word below the last one
    have hctz : IGRAPH_CTZ ((words b).getD (t / 64) 0) = t % 64 :=
      ctz_from_low _ 64 0 (t % 64) hp (by simpa using hwb) (fun j hj => by
        rw [Nat.zero_add, ← bit_word b (t / 64) j (by omega)]
        exact hz _ (by omega))
    have hloop := countr_zero_loop_hit h ((L : Int) + 1) (by omega) (t / 64)
      (word_ne_zero_of_bit t hb) L 0 (by omega) (Nat.zero_le _) (by omega)
      (fun j _ hjk => word_zero_of_bits_zero h j (fun q hq => hz _ (by omega)))
    rw [show ((0 : Nat) : Int) = 0 from rfl] at hloop
    rw [hloop, hctz]
    unfold IGRAPH_INTEGER_SIZE
    congr 1
    omega
  · -- the lowest 1 lies in the last word
    have hkL : t / 64 = L := by
      have : (t : Int) < 64 * (L : Int) + 64 := by omega
      omega
    have hpf : t % 64 < f := by
      have : (t : Int) < 64 * (L : Int) + f := by omega
      omega
    rw [hkL] at hwb
    have hmb : (mask_zero b &&& (words b).getD L 0).testBit (t % 64) = true := by
      rw [testBit_mask_and hf1 hf hfb, hwb]; simp [hpf]
    have hne : mask_zero b &&& (words b).getD L 0 ≠ 0 := by
      intro h0; rw [h0] at hmb; simp at hmb
    have hctz : IGRAPH_CTZ (mask_zero b &&& (words b).getD L 0) = t % 64 :=
      ctz_from_low _ 64 0 (t % 64) hp (by simpa using hmb) (fun j hj => by
        rw [Nat.zero_add, testBit_mask_and hf1 hf hfb, ← bit_word b L j (by omega),
          hz _ (by omega)]
        simp)
    have hloop := countr_zero_loop_all_zero h ((L : Int) + 1) (by omega) L 0 (by omega)
      (fun k _ hk => word_zero_of_bits_zero h k (fun q hq => hz _ (by omega)))
    rw [show ((0 : Nat) : Int) = 0 from rfl] at hloop
    rw [hloop]
    unfold countr_zero_last
    rw [← hsl, hv, if_pos hs]
    simp only
    rw [if_pos hne, hctz, hsl]
    unfold IGRAPH_INTEGER_SIZE
    congr 1
    omega

/-! ## Leading and trailing ones, by complement -/

theorem words_complement (b : igraph_bitset_t) :
    words (complement b) = (words b).map word_not := by
  unfold words complement
  cases b.stor_begin <;> simp

theorem wf_complement {b : igraph_bitset_t} (h : well_formed b) : well_formed (complement b) := by
  obtain ⟨h1, h2, h3, h4⟩ := h
  refine ⟨h1, ?_, ?_, ?_⟩
  · simpa [complement] using h2
  · rw [words_complement, List.length_map]; exact h3
  · intro w hw
    rw [words_complement, List.mem_map] at hw
    obtain ⟨x, hx, rfl⟩ := hw
    exact word_not_lt x (h4 x hx)

theorem VECTOR_complement (b : igraph_bitset_t) (i : Int) :
    VECTOR (complement b) i = (VECTOR b i).map word_not := by
  unfold VECTOR complement
  cases b.stor_begin with
  | none => rfl
  | some ws =>
    simp only [Option.map_some']
    split
    · simp [List.getElem?_map]
    · rfl

theorem getD_complement {b : igraph_bitset_t} (k : Nat) (hk : k < (words b).length) :
    (words (complement b)).getD k 0 = word_not ((words b).getD k 0) := by
  rw [words_complement, List.getD_eq_getElem _ _ (by simpa using hk),
    List.getD_eq_getElem _ _ hk, List.getElem_map]

theorem bit_complement {b : igraph_bitset_t} (h : well_formed b) (i : Nat)
    (hi : (i : Int) < b.size) : bit (complement b) i = !bit b i := by
  have hl := wf_length h
  have hk : i / 64 < (words b).length := by omega
  unfold bit
  rw [getD_complement _ hk, testBit_word_not _ (wf_word_lt h _)]
  simp [Nat.mod_lt]

theorem VECTOR_lt {b : igraph_bitset_t} (h : well_formed b) {i : Int} {w : Nat}
    (hv : VECTOR b i = some w) : w < 2 ^ 64 := by
  unfold VECTOR at hv
  rw [wf_stor h] at hv
  by_cases hi : 0 ≤ i
  · simp only [hi, if_true] at hv
    exact h.2.2.2 w (List.getElem?_mem hv)
  · simp [hi] at hv

theorem word_not_eq_zero_iff (w : Nat) : word_not w = 0 ↔ w = word_not 0 := by
  constructor
  · intro h
    have := congrArg word_not h
    rwa [word_not_not] at this
  · intro h; rw [h, word_not_not]

theorem word_not_or_mask (m w : Nat) (hm : m < 2 ^ 64) (hw : w < 2 ^ 64) :
    word_not (word_not m ||| w) = m &&& word_not w := by
  have hx : word_not m ||| w < 2 ^ 64 := Nat.or_lt_two_pow (word_not_lt m hm) hw
  apply Nat.eq_of_testBit_eq
  intro i
  rw [testBit_word_not _ hx, Nat.testBit_or, testBit_word_not _ hm, Nat.testBit_and,
    testBit_word_not _ hw]
  rcases Nat.lt_or_ge i 64 with hi | hi
  · simp [hi]
  · simp [Nat.not_lt.mpr hi]

theorem countl_one_loop_complement (b : igraph_bitset_t) (slots padding : Int) :
    ∀ (n : Nat) (i : Int),
      countl_one_loop b slots padding n i = countl_zero_loop (complement b) slots padding n i
  | 0, _ => rfl
  | n + 1, i => by
    simp only [countl_one_loop, countl_zero_loop, VECTOR_complement]
    cases VECTOR b (slots - i - 1) with
    | none => rfl
    | some w =>
      simp only [Option.map_some']
      by_cases hw : w = word_not 0
      · have h0 : word_not w = 0 := (word_not_eq_zero_iff w).mpr hw
        rw [if_neg (not_not.mpr hw), if_neg (not_not.mpr h0)]
        exact countl_one_loop_complement b slots padding n (i + 1)
      · have h0 : word_not w ≠ 0 := fun h => hw ((word_not_eq_zero_iff w).mp h)
        rw [if_pos hw, if_pos h0]
        rfl

theorem countr_one_last_complement {b : igraph_bitset_t} (h : well_formed b) (slots : Int) :
    countr_one_last b slots = countr_zero_last (complement b) slots := by
  unfold countr_one_last countr_zero_last
  by_cases hs : b.size = 0
  · have hs2 : (complement b).size = 0 := hs
    simp [hs, hs2]
  · have hs2 : (complement b).size ≠ 0 := hs
    obtain ⟨L, f, hlen, hf1, hf, hsz, hfb, hsl⟩ := wf_shape h hs
    rw [if_pos hs, if_pos hs2, VECTOR_complement]
    cases hv : VECTOR b (slots - 1) with
    | none => rfl
    | some w =>
      have hw : w < 2 ^ 64 := VECTOR_lt h hv
      have hmz : mask_zero (complement b) = mask_zero b := rfl
      have hid := word_not_or_mask (mask_zero b) w (mask_zero_lt hf1 hf hfb) hw
      simp only [Option.map_some', hmz, mask_one_eq]
      by_cases hc : word_not (mask_zero b) ||| w = word_not 0
      · have h0 : mask_zero b &&& word_not w = 0 := by
          rw [← hid, hc, word_not_not]
        rw [if_neg (not_not.mpr hc), if_neg (not_not.mpr h0)]
        rfl
      · have h0 : mask_zero b &&& word_not w ≠ 0 := by
          rw [← hid]; exact fun h => hc ((word_not_eq_zero_iff _).mp h)
        rw [if_pos hc, if_pos h0]
        unfold IGRAPH_CTO
        rw [hid]

theorem countr_one_loop_complement {b : igraph_bitset_t} (h : well_formed b) (slots : Int) :
    ∀ (n : Nat) (i : Int),
      countr_one_loop b slots n i = countr_zero_loop (complement b) slots n i
  | 0, _ => countr_one_last_complement h slots
  | n + 1, i => by
    simp only [countr_one_loop, countr_zero_loop, VECTOR_complement]
    cases VECTOR b i with
    | none => rfl
    | some w =>
      simp only [Option.map_some']
      by_cases hw : w = word_not 0
      · have h0 : word_not w = 0 := (word_not_eq_zero_iff w).mpr hw
        rw [if_neg (not_not.mpr hw), if_neg (not_not.mpr h0)]
        exact countr_one_loop_complement h slots n (i + 1)
      · have h0 : word_not w ≠ 0 := fun h => hw ((word_not_eq_zero_iff w).mp h)
        rw [if_pos hw, if_pos h0]
        rfl

theorem countr_one_complement {b : igraph_bitset_t} (h : well_formed b) :
    igraph_bitset_countr_one b = igraph_bitset_countr_zero (complement b) :=
  countr_one_loop_complement h _ _ _

theorem countl_one_complement {b : igraph_bitset_t} (h : well_formed b) :
    igraph_bitset_countl_one b = igraph_bitset_countl_zero (complement b) := by
  unfold igraph_bitset_countl_one igraph_bitset_countl_zero
  have hsz : (complement b).size = b.size := rfl
  have hfbs : final_block_size (complement b) = final_block_size b := rfl
  have hmz : mask_zero (complement b) = mask_zero b := rfl
  simp only [hsz, hfbs, hmz, countl_one_loop_complement, VECTOR_complement]
  by_cases hs : b.size = 0
  · simp [hs]
  · obtain ⟨L, f, hlen, hf1, hf, hsz, hfb, hsl⟩ := wf_shape h hs
    rw [if_pos hs, if_pos hs]
    cases hv : VECTOR b (IGRAPH_BITNSLOTS b.size - 1) with
    | none => rfl
    | some w =>
      have hw : w < 2 ^ 64 := VECTOR_lt h hv
      have hid := word_not_or_mask (mask_zero b) w (mask_zero_lt hf1 hf hfb) hw
      simp only [Option.map_some', mask_one_eq]
      by_cases hc : word_not (mask_zero b) ||| w = word_not 0
      · have h0 : mask_zero b &&& word_not w = 0 := by
          rw [← hid, hc, word_not_not]
        rw [if_neg (not_not.mpr hc), if_neg (not_not.mpr h0)]
      · have h0 : mask_zero b &&& word_not w ≠ 0 := by
          rw [← hid]; exact fun h => hc ((word_not_eq_zero_iff _).mp h)
        rw [if_pos hc, if_pos h0]
        unfold IGRAPH_CLO
        rw [hid]

theorem countl_one_of_all_one {b : igraph_bitset_t} (h : well_formed b)
    (hz : ∀ i : Nat, (i : Int) < b.size → bit b i = true) :
    igraph_bitset_countl_one b = some b.size := by
  rw [countl_one_complement h]
  exact countl_zero_of_all_zero (wf_complement h) (fun i hi => by
    rw [bit_complement h i hi, hz i hi]; rfl)

theorem countl_one_of_highest {b : igraph_bitset_t} (h : well_formed b) (t : Nat)
    (ht : (t : Int) < b.size) (hb : bit b t = false)
    (hz : ∀ j : Nat, t < j → (j : Int) < b.size → bit b j = true) :
    igraph_bitset_countl_one b = some (b.size - 1 - t) := by
  rw [countl_one_complement h]
  exact countl_zero_of_highest (wf_complement h) t ht (by rw [bit_complement h t ht, hb]; rfl)
    (fun j hj hjs => by rw [bit_complement h j hjs, hz j hj hjs]; rfl)

theorem countr_one_of_all_one {b : igraph_bitset_t} (h : well_formed b)
    (hz : ∀ i : Nat, (i : Int) < b.size → bit b i = true) :
    igraph_bitset_countr_one b = some b.size := by
  rw [countr_one_complement h]
  exact countr_zero_of_all_zero (wf_complement h) (fun i hi => by
    rw [bit_complement h i hi, hz i hi]; rfl)

theorem countr_one_of_lowest {b : igraph_bitset_t} (h : well_formed b) (t : Nat)
    (ht : (t : Int) < b.size) (hb : bit b t = false)
    (hz : ∀ j : Nat, j < t → bit b j = true) :
    igraph_bitset_countr_one b = some (t : Int) := by
  rw [countr_one_complement h]
  exact countr_zero_of_lowest (wf_complement h) t ht (by rw [bit_complement h t ht, hb]; rfl)
    (fun j hj => by rw [bit_complement h j (by omega), hz j hj]; rfl)

/-! ## Claims on the run-length queries -/

/-- C2: on a well-formed bitset, whatever its padding bits, `igraph_bitset_countl_zero`
returns `size` when no bit below `size` is 1 (also for `size = 0`), and `size - 1 - h`
when `h` is the highest index below `size` whose bit is 1. -/
theorem countl_zero_correct (b : igraph_bitset_t) (hwf : well_formed b) :
    ((∀ i : Nat, (i : Int) < b.size → bit b i = false) →
      igraph_bitset_countl_zero b = some b.size) ∧
    (∀ h : Nat, (h : Int) < b.size → bit b h = true →
      (∀ j : Nat, h < j → (j : Int) < b.size → bit b j = false) →
      igraph_bitset_countl_zero b = some (b.size - 1 - h)) :=
  ⟨countl_zero_of_all_zero hwf, countl_zero_of_highest hwf⟩

/-- Witness for C2: size 70, highest 1 at index 65, padding bit 63 of the last word set. -/
theorem countl_zero_correct_witness :
    well_formed ⟨70, some [5, 2 ^ 63 + 3], 2⟩ ∧
      igraph_bitset_countl_zero ⟨70, some [5, 2 ^ 63 + 3], 2⟩ = some 4 :=
  ⟨by decide, (countl_zero_correct ⟨70, some [5, 2 ^ 63 + 3], 2⟩ (by decide)).2 65
    (by decide) (by decide) (fun j h1 h2 => by
      have hj : j = 66 ∨ j = 67 ∨ j = 68 ∨ j = 69 := by
        have h3 : (j : Int) < 70 := h2
        omega
      rcases hj with rfl | rfl | rfl | rfl <;> decide)⟩

/-- C3: on a well-formed bitset, whatever its padding bits, `igraph_bitset_countl_one`
returns `size` when every bit below `size` is 1, and `size - 1 - h` when `h` is the
highest index below `size` whose bit is 0. -/
theorem countl_one_correct (b : igraph_bitset_t) (hwf : well_formed b) :
    ((∀ i : Nat, (i : Int) < b.size → bit b i = true) →
      igraph_bitset_countl_one b = some b.size) ∧
    (∀ h : Nat, (h : Int) < b.size → bit b h = false →
      (∀ j : Nat, h < j → (j : Int) < b.size → bit b j = true) →
      igraph_bitset_countl_one b = some (b.size - 1 - h)) :=
  ⟨countl_one_of_all_one hwf, countl_one_of_highest hwf⟩

/-- Witness for C3: size 67, bits 65 and 66 set, highest 0 at index 64, padding all 0. -/
theorem countl_one_correct_witness :
    well_formed ⟨67, some [2 ^ 64 - 1, 6], 2⟩ ∧
      igraph_bitset_countl_one ⟨67, some [2 ^ 64 - 1, 6], 2⟩ = some 2 :=
  ⟨by decide, (countl_one_correct ⟨67, some [2 ^ 64 - 1, 6], 2⟩ (by decide)).2 64
    (by decide) (by decide) (fun j h1 h2 => by
      have hj : j = 65 ∨ j = 66 := by
        have h3 : (j : Int) < 67 := h2
        omega
      rcases hj with rfl | rfl <;> decide)⟩

/-- C4: on a well-formed bitset, whatever its padding bits, `igraph_bitset_countr_zero`
returns the lowest index below `size` whose bit is 1, and `size` when no bit below `size`
is 1. -/
theorem countr_zero_correct (b : igraph_bitset_t) (hwf : well_formed b) :
    ((∀ i : Nat, (i : Int) < b.size → bit b i = false) →
      igraph_bitset_countr_zero b = some b.size) ∧
    (∀ l : Nat, (l : Int) < b.size → bit b l = true →
      (∀ j : Nat, j < l → bit b j = false) →
      igraph_bitset_countr_zero b = some (l : Int)) :=
  ⟨countr_zero_of_all_zero hwf, countr_zero_of_lowest hwf⟩

/-- Witness for C4: size 66, no bit below 66 set, padding bits 2 and 63 of the last word
set; the run is not stopped by the padding. -/
theorem countr_zero_correct_witness :
    well_formed ⟨66, some [0, 2 ^ 63 + 4], 2⟩ ∧
      igraph_bitset_countr_zero ⟨66, some [0, 2 ^ 63 + 4], 2⟩ = some 66 :=
  ⟨by decide, (countr_zero_correct ⟨66, some [0, 2 ^ 63 + 4], 2⟩ (by decide)).1
    (fun i hi => by
      have h3 : (i : Int) < 66 := hi
      have hi2 : i < 66 := by omega
      interval_cases i <;> decide)⟩

/-- C5: on a well-formed bitset, whatever its padding bits, `igraph_bitset_countr_one`
returns the lowest index below `size` whose bit is 0, and `size` when every bit below
`size` is 1. -/
theorem countr_one_correct (b : igraph_bitset_t) (hwf : well_formed b) :
    ((∀ i : Nat, (i : Int) < b.size → bit b i = true) →
      igraph_bitset_countr_one b = some b.size) ∧
    (∀ l : Nat, (l : Int) < b.size → bit b l = false →
      (∀ j : Nat, j < l → bit b j = true) →
      igraph_bitset_countr_one b = some (l : Int)) :=
  ⟨countr_one_of_all_one hwf, countr_one_of_lowest hwf⟩

/-- Witness for C5: size 3, all three bits set, padding all 0; the run stops at `size`. -/
theorem countr_one_correct_witness :
    well_formed ⟨3, some [7], 1⟩ ∧ igraph_bitset_countr_one ⟨3, some [7], 1⟩ = some 3 :=
  ⟨by decide, (countr_one_correct ⟨3, some [7], 1⟩ (by decide)).1
    (fun i hi => by
      have h3 : (i : Int) < 3 := hi
      have hi2 : i < 3 := by omega
      interval_cases i <;> decide)⟩

/-! ## The `int` mask of the population count -/

theorem popcount_split (y : Nat) :
    IGRAPH_POPCOUNT y = (List.range 31).countP (fun k => y.testBit k) +
      (List.range 33).countP (fun k => y.testBit (31 + k)) := by
  unfold IGRAPH_POPCOUNT
  rw [show (64 : Nat) = 31 + 33 from rfl, List.range_add, List.countP_append, List.countP_map]
  rfl

theorem testBit_int_to_integer_low (x : Nat) (hx : x < 2 ^ 31) (k : Nat) (hk : 31 ≤ k) :
    (int_to_integer x).testBit k = false := by
  unfold int_to_integer
  rw [if_pos hx]
  exact Nat.testBit_lt_two_pow (Nat.lt_of_lt_of_le hx (Nat.pow_le_pow_right (by decide) hk))

theorem testBit_int_to_integer_high (x : Nat) (hx : 2 ^ 31 ≤ x) (hx2 : x < 2 ^ 32) (k : Nat)
    (hk : 31 ≤ k) (hk2 : k < 64) : (int_to_integer x).testBit k = true := by
  unfold int_to_integer
  rw [if_neg (by omega)]
  have e : x + (2 ^ 64 - 2 ^ 32) = 2 ^ 31 * (2 ^ 33 - 1) + (x - 2 ^ 31) := by omega
  rw [e, Nat.testBit_mul_pow_two_add _ (by omega : x - 2 ^ 31 < 2 ^ 31), if_neg (by omega),
    Nat.testBit_two_pow_sub_one]
  simp; omega

theorem int_to_integer_lt (x : Nat) (hx : x < 2 ^ 32) : int_to_integer x < 2 ^ 64 := by
  unfold int_to_integer
  split <;> omega

/-- Whatever 32-bit value the `int` mask has, converted to `igraph_integer_t` it never has
exactly 32 bits set: a non-negative `int` has at most 31, a negative one at least 33. -/
theorem popcount_int_mask_ne (x : Nat) (hx : x < 2 ^ 32) :
    IGRAPH_POPCOUNT (int_to_integer x &&& (2 ^ 64 - 1)) ≠ 32 := by
  rw [popcount_split]
  rcases Nat.lt_or_ge x (2 ^ 31) with hlt | hge
  · have h0 : (List.range 33).countP
        (fun k => (int_to_integer x &&& (2 ^ 64 - 1)).testBit (31 + k)) = 0 := by
      rw [List.countP_eq_zero]
      intro k _
      rw [Nat.testBit_and, testBit_int_to_integer_low x hlt _ (by omega)]
      simp
    have h1 : (List.range 31).countP
        (fun k => (int_to_integer x &&& (2 ^ 64 - 1)).testBit k) ≤ 31 := by
      have h2 := List.countP_le_length (l := List.range 31)
        (p := fun k => (int_to_integer x &&& (2 ^ 64 - 1)).testBit k)
      rwa [List.length_range] at h2
    omega
  · have h0 : (List.range 33).countP
        (fun k => (int_to_integer x &&& (2 ^ 64 - 1)).testBit (31 + k)) = 33 := by
      have := (List.countP_eq_length (l := List.range 33)
        (p := fun k => (int_to_integer x &&& (2 ^ 64 - 1)).testBit (31 + k))).mpr (by
        intro k hk
        have hk2 : k < 33 := List.mem_range.mp hk
        rw [Nat.testBit_and, testBit_int_to_integer_high x hge hx _ (by omega) (by omega),
          Nat.testBit_two_pow_sub_one]
        simp; omega)
      simpa using this
    omega

theorem int_sub_lt (x y : Nat) : int_sub x y < 2 ^ 32 := Nat.mod_lt _ (by decide)

theorem popcount_size_32 (ub : Int → Nat) (w : Nat) (e : Int) :
    igraph_bitset_popcount ub ⟨32, some [w], e⟩ =
      some (IGRAPH_POPCOUNT (int_to_integer (int_sub (ub 32 % 2 ^ 32) 1) &&& w)) := by
  have h1 : IGRAPH_BITNSLOTS 32 = 1 := by decide
  have h2 : final_block_size ⟨32, some [w], e⟩ = 32 := rfl
  simp [igraph_bitset_popcount, popcount_loop, popcount_mask, VECTOR, h1, h2,
    IGRAPH_INTEGER_SIZE, int_shl_one]

/-! ## The combinator loops -/

theorem VECTOR_set_nat (dest : igraph_bitset_t) (wd : List Nat) (hd : dest.stor_begin = some wd)
    (m : Nat) (hm : m < wd.length) (v : Nat) :
    VECTOR_set dest (m : Int) v = some { dest with stor_begin := some (wd.set m v) } := by
  unfold VECTOR_set
  rw [hd]
  simp [hm]

theorem getD_set (wd : List Nat) (m k v : Nat) (hm : m < wd.length) :
    (wd.set m v).getD k 0 = if k = m then v else wd.getD k 0 := by
  rw [List.getD_eq_getElem?_getD, List.getD_eq_getElem?_getD, List.getElem?_set]
  by_cases hkm : k = m
  · subst hkm; simp [hm]
  · simp [hkm, Ne.symm hkm]

theorem binary_loop_spec (op : Nat → Nat → Nat) {src1 src2 : igraph_bitset_t}
    (h1 : well_formed src1) (h2 : well_formed src2) (L : Nat)
    (hl1 : (words src1).length = L) (hl2 : (words src2).length = L) :
    ∀ (n m : Nat) (dest : igraph_bitset_t) (wd : List Nat), m + n = L →
      dest.stor_begin = some wd → wd.length = L →
      ∃ wr : List Nat, binary_loop op src1 src2 n m dest = some { dest with stor_begin := some wr } ∧
        wr.length = L ∧ ∀ k, k < L → wr.getD k 0 =
          if k < m then wd.getD k 0 else op ((words src1).getD k 0) ((words src2).getD k 0)
  | 0, m, dest, wd, hmn, hd, hlen => by
    refine ⟨wd, ?_, hlen, ?_⟩
    · simp only [binary_loop]
      rw [← hd]
    · intro k hk
      rw [if_pos (by omega)]
  | n + 1, m, dest, wd, hmn, hd, hlen => by
    have hv1 := VECTOR_nat h1 (m : Int) m rfl (by omega)
    have hv2 := VECTOR_nat h2 (m : Int) m rfl (by omega)
    have hset := VECTOR_set_nat dest wd hd m (by omega)
      (op ((words src1).getD m 0) ((words src2).getD m 0))
    obtain ⟨wr, hr, hrl, hrk⟩ := binary_loop_spec op h1 h2 L hl1 hl2 n (m + 1)
      { dest with stor_begin := some (wd.set m
          (op ((words src1).getD m 0) ((words src2).getD m 0))) }
      (wd.set m (op ((words src1).getD m 0) ((words src2).getD m 0)))
      (by omega) rfl (by rw [List.length_set]; exact hlen)
    refine ⟨wr, ?_, hrl, ?_⟩
    · simp only [binary_loop, hv1, hv2, hset]
      rw [show ((m : Int) + 1) = ((m + 1 : Nat) : Int) by push_cast; rfl]
      exact hr
    · intro k hk
      rw [hrk k hk, getD_set _ _ _ _ (by omega)]
      by_cases hkm : k < m
      · rw [if_pos (by omega), if_neg (by omega), if_pos hkm]
      · rw [if_neg hkm]
        by_cases hkm2 : k = m
        · subst hkm2; simp
        · rw [if_neg (by omega)]

theorem not_loop_spec {src : igraph_bitset_t} (h1 : well_formed src) (L : Nat)
    (hl1 : (words src).length = L) :
    ∀ (n m : Nat) (dest : igraph_bitset_t) (wd : List Nat), m + n = L →
      dest.stor_begin = some wd → wd.length = L →
      ∃ wr : List Nat, not_loop src n m dest = some { dest with stor_begin := some wr } ∧
        wr.length = L ∧ ∀ k, k < L → wr.getD k 0 =
          if k < m then wd.getD k 0 else word_not ((words src).getD k 0)
  | 0, m, dest, wd, hmn, hd, hlen => by
    refine ⟨wd, ?_, hlen, ?_⟩
    · simp only [not_loop]
      rw [← hd]
    · intro k hk
      rw [if_pos (by omega)]
  | n + 1, m, dest, wd, hmn, hd, hlen => by
    have hv1 := VECTOR_nat h1 (m : Int) m rfl (by omega)
    have hset := VECTOR_set_nat dest wd hd m (by omega) (word_not ((words src).getD m 0))
    obtain ⟨wr, hr, hrl, hrk⟩ := not_loop_spec h1 L hl1 n (m + 1)
      { dest with stor_begin := some (wd.set m (word_not ((words src).getD m 0))) }
      (wd.set m (word_not ((words src).getD m 0)))
      (by omega) rfl (by rw [List.length_set]; exact hlen)
    refine ⟨wr, ?_, hrl, ?_⟩
    · simp only [not_loop, hv1, hset]
      rw [show ((m : Int) + 1) = ((m + 1 : Nat) : Int) by push_cast; rfl]
      exact hr
    · intro k hk
      rw [hrk k hk, getD_set _ _ _ _ (by omega)]
      by_cases hkm : k < m
      · rw [if_pos (by omega), if_neg (by omega), if_pos hkm]
      · rw [if_neg hkm]
        by_cases hkm2 : k = m
        · subst hkm2; simp
        · rw [if_neg (by omega)]

theorem wf_length_toNat {b : igraph_bitset_t} (h : well_formed b) :
    (words b).length = (IGRAPH_BITNSLOTS b.size).toNat := by
  have := h.2.2.1
  omega

theorem binary_result (op : Nat → Nat → Nat) {dest src1 src2 : igraph_bitset_t}
    (hd : well_formed dest) (h1 : well_formed src1) (h2 : well_formed src2)
    (hs1 : src1.size = dest.size) (hs2 : src2.size = dest.size) :
    ∃ wr : List Nat,
      binary_loop op src1 src2 (IGRAPH_BITNSLOTS dest.size).toNat 0 dest =
        some { dest with stor_begin := some wr } ∧
      wr.length = (words dest).length ∧
      ∀ k, k < (words dest).length →
        wr.getD k 0 = op ((words src1).getD k 0) ((words src2).getD k 0) := by
  have hl := wf_length_toNat hd
  have hl1 := wf_length_toNat h1
  have hl2 := wf_length_toNat h2
  rw [hs1] at hl1
  rw [hs2] at hl2
  obtain ⟨wr, hr, hrl, hrk⟩ := binary_loop_spec op h1 h2 (words dest).length
    (by omega) (by omega) (words dest).length 0 dest (words dest) (by omega) (wf_stor hd) rfl
  refine ⟨wr, ?_, hrl, ?_⟩
  · rw [← hl]; exact hr
  · intro k hk
    rw [hrk k hk, if_neg (Nat.not_lt_zero k)]

theorem not_result {dest src : igraph_bitset_t}
    (hd : well_formed dest) (h1 : well_formed src) (hs1 : src.size = dest.size) :
    ∃ wr : List Nat,
      igraph_bitset_not dest src = some { dest with stor_begin := some wr } ∧
      wr.length = (words dest).length ∧
      ∀ k, k < (words dest).length → wr.getD k 0 = word_not ((words src).getD k 0) := by
  have hl := wf_length_toNat hd
  have hl1 := wf_length_toNat h1
  rw [hs1] at hl1
  obtain ⟨wr, hr, hrl, hrk⟩ := not_loop_spec h1 (words dest).length
    (by omega) (words dest).length 0 dest (words dest) (by omega) (wf_stor hd) rfl
  refine ⟨wr, ?_, hrl, ?_⟩
  · unfold igraph_bitset_not; rw [← hl]; exact hr
  · intro k hk
    rw [hrk k hk, if_neg (Nat.not_lt_zero k)]

theorem index_lt_length {b : igraph_bitset_t} (h : well_formed b) (i : Nat)
    (hi : (i : Int) < b.size) : i / 64 < (words b).length := by
  have hl := wf_length h
  omega

theorem binary_bits (op : Nat → Nat → Nat) (f : Bool → Bool → Bool)
    (hop : ∀ x y i, (op x y).testBit i = f (x.testBit i) (y.testBit i))
    {dest src1 src2 : igraph_bitset_t}
    (hd : well_formed dest) (h1 : well_formed src1) (h2 : well_formed src2)
    (hs1 : src1.size = dest.size) (hs2 : src2.size = dest.size) :
    ∃ d : igraph_bitset_t,
      binary_loop op src1 src2 (IGRAPH_BITNSLOTS dest.size).toNat 0 dest = some d ∧
      d.size = dest.size ∧
      ∀ i : Nat, (i : Int) < dest.size → bit d i = f (bit src1 i) (bit src2 i) := by
  obtain ⟨wr, hr, _, hrk⟩ := binary_result op hd h1 h2 hs1 hs2
  refine ⟨_, hr, rfl, ?_⟩
  intro i hi
  have hk := index_lt_length hd i hi
  show (wr.getD (i / 64) 0).testBit (i % 64) = _
  rw [hrk _ hk, hop]
  rfl

theorem not_bits {dest src : igraph_bitset_t}
    (hd : well_formed dest) (h1 : well_formed src) (hs1 : src.size = dest.size) :
    ∃ d : igraph_bitset_t, igraph_bitset_not dest src = some d ∧ d.size = dest.size ∧
      ∀ i : Nat, (i : Int) < dest.size → bit d i = !bit src i := by
  obtain ⟨wr, hr, _, hrk⟩ := not_result hd h1 hs1
  refine ⟨_, hr, rfl, ?_⟩
  intro i hi
  have hk := index_lt_length hd i hi
  show (wr.getD (i / 64) 0).testBit (i % 64) = _
  have hlt : i % 64 < 64 := Nat.mod_lt _ (by decide)
  rw [hrk _ hk, testBit_word_not _ (wf_word_lt h1 _), decide_eq_true hlt, Bool.true_and]
  rfl

/-! ## Claims on the bitwise combinators -/

/-- C6: for well-formed `dest`, `src1`, `src2` of the same size, `igraph_bitset_or`,
`igraph_bitset_and` and `igraph_bitset_xor` each return a `dest` of unchanged size whose
bit `i`, for every `i` below `size`, is the OR, AND, XOR of bit `i` of `src1` and bit `i`
of `src2`. -/
theorem or_and_xor_bitwise (dest src1 src2 : igraph_bitset_t)
    (hd : well_formed dest) (h1 : well_formed src1) (h2 : well_formed src2)
    (hs1 : src1.size = dest.size) (hs2 : src2.size = dest.size) :
    (∃ d, igraph_bitset_or dest src1 src2 = some d ∧ d.size = dest.size ∧
      ∀ i : Nat, (i : Int) < dest.size → bit d i = (bit src1 i || bit src2 i)) ∧
    (∃ d, igraph_bitset_and dest src1 src2 = some d ∧ d.size = dest.size ∧
      ∀ i : Nat, (i : Int) < dest.size → bit d i = (bit src1 i && bit src2 i)) ∧
    (∃ d, igraph_bitset_xor dest src1 src2 = some d ∧ d.size = dest.size ∧
      ∀ i : Nat, (i : Int) < dest.size → bit d i = (bit src1 i != bit src2 i)) :=
  ⟨binary_bits _ _ Nat.testBit_or hd h1 h2 hs1 hs2,
   binary_bits _ _ Nat.testBit_and hd h1 h2 hs1 hs2,
   binary_bits _ (fun x y => x != y) (fun x y i => by
      rw [Nat.testBit_xor])
     hd h1 h2 hs1 hs2⟩

/-- Witness for C6: size 5, padding bits set in both sources. -/
theorem or_and_xor_bitwise_witness :
    (well_formed ⟨5, some [0], 1⟩ ∧ well_formed ⟨5, some [2 ^ 63 + 5], 1⟩ ∧
      well_formed ⟨5, some [2 ^ 40 + 20], 1⟩) ∧
    ∃ d, igraph_bitset_or ⟨5, some [0], 1⟩ ⟨5, some [2 ^ 63 + 5], 1⟩
        ⟨5, some [2 ^ 40 + 20], 1⟩ = some d ∧ d.size = 5 ∧
      ∀ i : Nat, (i : Int) < 5 → bit d i =
        (bit ⟨5, some [2 ^ 63 + 5], 1⟩ i || bit ⟨5, some [2 ^ 40 + 20], 1⟩ i) :=
  ⟨⟨by decide, by decide, by decide⟩,
    (or_and_xor_bitwise ⟨5, some [0], 1⟩ ⟨5, some [2 ^ 63 + 5], 1⟩ ⟨5, some [2 ^ 40 + 20], 1⟩
      (by decide) (by decide) (by decide) rfl rfl).1⟩

/-- C7: for well-formed `dest` and `src` of the same size, `igraph_bitset_not` returns a
`dest` of unchanged size whose bit `i`, for every `i` below `size`, is the negation of bit
`i` of `src`. -/
theorem not_bitwise (dest src : igraph_bitset_t)
    (hd : well_formed dest) (h1 : well_formed src) (hs1 : src.size = dest.size) :
    ∃ d, igraph_bitset_not dest src = some d ∧ d.size = dest.size ∧
      ∀ i : Nat, (i : Int) < dest.size → bit d i = !bit src i :=
  not_bits hd h1 hs1

/-- Witness for C7: complementing an empty bitset of size 70 in place. -/
theorem not_bitwise_witness :
    well_formed ⟨70, some [0, 0], 2⟩ ∧
    ∃ d, igraph_bitset_not ⟨70, some [0, 0], 2⟩ ⟨70, some [0, 0], 2⟩ = some d ∧ d.size = 70 ∧
      ∀ i : Nat, (i : Int) < 70 → bit d i = !bit ⟨70, some [0, 0], 2⟩ i :=
  ⟨by decide, not_bitwise ⟨70, some [0, 0], 2⟩ ⟨70, some [0, 0], 2⟩ (by decide) (by decide) rfl⟩

/-! ## The population count, word by word -/

theorem popcount_loop_spec {b : igraph_bitset_t} (h : well_formed b) :
    ∀ (n m : Nat) (count : Int), m + n ≤ (words b).length →
      popcount_loop b n m count =
        some (count + popcount_sum (((words b).drop m).take n))
  | 0, m, count, _ => by simp [popcount_loop, popcount_sum]
  | n + 1, m, count, hmn => by
    have hm : m < (words b).length := by omega
    have hv := VECTOR_nat h (m : Int) m rfl hm
    have ih := popcount_loop_spec h n (m + 1) (count + IGRAPH_POPCOUNT ((words b).getD m 0))
      (by omega)
    simp only [popcount_loop, hv]
    rw [show ((m : Int) + 1) = ((m + 1 : Nat) : Int) by push_cast; rfl, ih]
    rw [List.drop_eq_getElem_cons hm, List.take_succ_cons, List.getD_eq_getElem _ _ hm]
    simp only [popcount_sum, List.map_cons, List.sum_cons]
    congr 1
    push_cast
    omega

theorem popcount_words (ub : Int → Nat) {b : igraph_bitset_t} (h : well_formed b) {L : Nat}
    (hlen : (words b).length = L + 1) (hs : b.size ≠ 0) :
    igraph_bitset_popcount ub b =
      some ((popcount_sum ((words b).take L) : Int) +
        IGRAPH_POPCOUNT (popcount_mask ub b &&& (words b).getD L 0)) := by
  have hsl : IGRAPH_BITNSLOTS b.size = (L : Int) + 1 := by
    have := h.2.2.1
    omega
  have hv := VECTOR_nat h (IGRAPH_BITNSLOTS b.size - 1) L (by omega) (by omega)
  have hloop := popcount_loop_spec h L 0 0 (by omega)
  unfold igraph_bitset_popcount
  simp only [hv, if_pos hs]
  rw [hsl]
  simp only [Int.add_sub_cancel, Int.toNat_ofNat]
  rw [show ((0 : Nat) : Int) = 0 from rfl] at hloop
  rw [hloop]
  simp

theorem popcount_empty (ub : Int → Nat) {b : igraph_bitset_t} (h : well_formed b)
    (hs : b.size = 0) : igraph_bitset_popcount ub b = some 0 := by
  obtain ⟨_, hsl⟩ := wf_empty h hs
  unfold igraph_bitset_popcount
  rw [hsl]
  simp [hs, popcount_loop]

theorem and_two_pow_of_testBit (m k : Nat) (h : m.testBit k = true) : m &&& 2 ^ k = 2 ^ k := by
  apply Nat.eq_of_testBit_eq
  intro i
  rw [Nat.testBit_and, Nat.testBit_two_pow]
  by_cases hki : k = i
  · subst hki; simp [h]
  · simp [hki]

theorem and_two_pow_of_not_testBit (m k : Nat) (h : m.testBit k = false) : m &&& 2 ^ k = 0 := by
  apply Nat.eq_of_testBit_eq
  intro i
  rw [Nat.testBit_and, Nat.testBit_two_pow]
  by_cases hki : k = i
  · subst hki; simp [h]
  · simp [hki]

/-! ## Claims on the population count -/

/-- C1, which the code does not meet: `igraph_bitset_popcount` is claimed to return the
number of indices below `size` whose bit is 1 for every size. On the well-formed bitset of
size 32 with all 32 bits set (storage word `~0`, as left by `igraph_bitset_not` on a fresh
bitset) that number is 32, but the function returns something else whatever the platform
makes of the `int` shift `1 << 32`: 0 where the shift count is taken modulo 32, and 64
where the shifted bit is lost. -/
theorem popcount_wrong_at_size_32 :
    well_formed ⟨32, some [2 ^ 64 - 1], 1⟩ ∧
    count_ones ⟨32, some [2 ^ 64 - 1], 1⟩ = 32 ∧
    (∀ ub : Int → Nat, igraph_bitset_popcount ub ⟨32, some [2 ^ 64 - 1], 1⟩ ≠ some 32) ∧
    igraph_bitset_popcount ub_count_masked ⟨32, some [2 ^ 64 - 1], 1⟩ = some 0 ∧
    igraph_bitset_popcount ub_shifted_out ⟨32, some [2 ^ 64 - 1], 1⟩ = some 64 := by
  refine ⟨by decide, by decide, ?_, by decide, by decide⟩
  intro ub hc
  rw [popcount_size_32] at hc
  have h := popcount_int_mask_ne (int_sub (ub 32 % 2 ^ 32) 1) (int_sub_lt _ _)
  apply h
  have h2 := Option.some.inj hc
  exact_mod_cast h2

/-- C10, which the code does not meet: `igraph_bitset_countl_zero(b) = size` is claimed to
hold exactly when `igraph_bitset_popcount(b) = 0`. At size 32 the `int` mask of
`igraph_bitset_popcount` breaks the equivalence on every platform: either on the bitset
whose only 1 is bit 31 (the mask is a non-negative `int` and drops bit 31, so the count is
0 while the run length is 0, not 32), or on the bitset whose bits below 32 are all 0 and
whose padding bit 32 is 1 (the mask is a negative `int`, sign-extended over the padding,
so the count is 1 while the run length is 32). -/
theorem countl_zero_popcount_disagree :
    well_formed ⟨32, some [2 ^ 31], 1⟩ ∧ well_formed ⟨32, some [2 ^ 32], 1⟩ ∧
    (∀ ub : Int → Nat,
      ¬ (igraph_bitset_countl_zero ⟨32, some [2 ^ 31], 1⟩ = some 32 ↔
          igraph_bitset_popcount ub ⟨32, some [2 ^ 31], 1⟩ = some 0) ∨
      ¬ (igraph_bitset_countl_zero ⟨32, some [2 ^ 32], 1⟩ = some 32 ↔
          igraph_bitset_popcount ub ⟨32, some [2 ^ 32], 1⟩ = some 0)) ∧
    (igraph_bitset_countl_zero ⟨32, some [2 ^ 31], 1⟩ = some 0 ∧
      igraph_bitset_popcount ub_count_masked ⟨32, some [2 ^ 31], 1⟩ = some 0) ∧
    (igraph_bitset_countl_zero ⟨32, some [2 ^ 32], 1⟩ = some 32 ∧
      igraph_bitset_popcount ub_shifted_out ⟨32, some [2 ^ 32], 1⟩ = some 1) := by
  refine ⟨by decide, by decide, ?_, ⟨by decide, by decide⟩, ⟨by decide, by decide⟩⟩
  intro ub
  have hx := int_sub_lt (ub 32 % 2 ^ 32) 1
  rcases Nat.lt_or_ge (int_sub (ub 32 % 2 ^ 32) 1) (2 ^ 31) with hlt | hge
  · left
    intro hiff
    have hp : igraph_bitset_popcount ub ⟨32, some [2 ^ 31], 1⟩ = some 0 := by
      rw [popcount_size_32,
        and_two_pow_of_not_testBit _ 31 (testBit_int_to_integer_low _ hlt 31 (by decide))]
      rfl
    have hc := hiff.mpr hp
    revert hc
    decide
  · right
    intro hiff
    have hp : igraph_bitset_popcount ub ⟨32, some [2 ^ 32], 1⟩ = some 1 := by
      rw [popcount_size_32,
        and_two_pow_of_testBit _ 32
          (testBit_int_to_integer_high _ hge hx 32 (by decide) (by decide))]
      rfl
    have hc := hiff.mp (by decide)
    rw [hp] at hc
    revert hc
    decide

/-! ## A fresh bitset -/

theorem init_success (bitset : igraph_bitset_t) (size : Int) :
    igraph_bitset_init true bitset size =
      (igraph_error_t.IGRAPH_SUCCESS,
        ⟨size, some (List.replicate (IGRAPH_BITNSLOTS size).toNat 0), IGRAPH_BITNSLOTS size⟩) :=
  rfl

theorem init_failure (bitset : igraph_bitset_t) (size : Int) :
    igraph_bitset_init false bitset size =
      (igraph_error_t.IGRAPH_ENOMEM, { bitset with stor_begin := none }) :=
  rfl

theorem wf_zeros (size e : Int) (hs : 0 ≤ size) :
    well_formed ⟨size, some (List.replicate (IGRAPH_BITNSLOTS size).toNat 0), e⟩ := by
  refine ⟨hs, rfl, ?_, ?_⟩
  · have h : 0 ≤ IGRAPH_BITNSLOTS size := by
      unfold IGRAPH_BITNSLOTS IGRAPH_INTEGER_SIZE
      rw [Int.tdiv_eq_ediv (by omega) (by decide)]
      omega
    simp [words, Int.toNat_of_nonneg h]
  · intro w hw
    simp only [words, Option.getD_some] at hw
    rw [List.eq_of_mem_replicate hw]
    decide

theorem getD_zeros (n k : Nat) : (List.replicate n 0).getD k 0 = 0 := by
  rcases Nat.lt_or_ge k n with hk | hk
  · rw [List.getD_eq_getElem _ _ (by simpa using hk)]; simp
  · rw [List.getD_eq_default _ _ (by simpa using hk)]

theorem bit_zeros (size e : Int) (n i : Nat) :
    bit ⟨size, some (List.replicate n 0), e⟩ i = false := by
  unfold bit
  simp only [words, Option.getD_some, getD_zeros]
  simp

theorem popcount_sum_zeros (n : Nat) : popcount_sum (List.replicate n 0) = 0 := by
  induction n with
  | zero => rfl
  | succ n ih =>
    rw [List.replicate_succ]
    simp only [popcount_sum, List.map_cons, List.sum_cons] at ih ⊢
    rw [ih]
    rfl

theorem popcount_zeros (ub : Int → Nat) (size e : Int) (hs : 0 ≤ size) :
    igraph_bitset_popcount ub
      ⟨size, some (List.replicate (IGRAPH_BITNSLOTS size).toNat 0), e⟩ = some 0 := by
  have hwf := wf_zeros size e hs
  by_cases h0 : size = 0
  · exact popcount_empty ub hwf h0
  · obtain ⟨L, f, hlen, _⟩ := wf_shape hwf h0
    rw [popcount_words ub hwf hlen h0]
    simp only [words, Option.getD_some, getD_zeros, List.take_replicate, popcount_sum_zeros,
      Nat.and_zero]
    rfl

/-! ## Claims on a fresh bitset -/

/-- C9: for every `size >= 0`, on the bitset that a successful `igraph_bitset_init(size)`
produces, `igraph_bitset_popcount` returns 0, `igraph_bitset_countl_zero` and
`igraph_bitset_countr_zero` return `size`, and `igraph_bitset_countl_one` and
`igraph_bitset_countr_one` return 0; so all five return 0 for `size = 0`. -/
theorem queries_after_init (ub : Int → Nat) (alloc_ok : Bool) (bitset b : igraph_bitset_t)
    (size : Int) (hs : 0 ≤ size)
    (hinit : igraph_bitset_init alloc_ok bitset size = (igraph_error_t.IGRAPH_SUCCESS, b)) :
    igraph_bitset_popcount ub b = some 0 ∧
    igraph_bitset_countl_zero b = some size ∧
    igraph_bitset_countr_zero b = some size ∧
    igraph_bitset_countl_one b = some 0 ∧
    igraph_bitset_countr_one b = some 0 := by
  cases alloc_ok with
  | false =>
    rw [init_failure] at hinit
    cases hinit
  | true =>
    rw [init_success] at hinit
    have hb := (Prod.mk.inj hinit).2
    subst hb
    have hwf := wf_zeros size (IGRAPH_BITNSLOTS size) hs
    have hz : ∀ i : Nat, (i : Int) < size →
        bit ⟨size, some (List.replicate (IGRAPH_BITNSLOTS size).toNat 0),
          IGRAPH_BITNSLOTS size⟩ i = false := fun i _ => bit_zeros _ _ _ i
    refine ⟨popcount_zeros ub size _ hs, countl_zero_of_all_zero hwf hz,
      countr_zero_of_all_zero hwf hz, ?_, ?_⟩
    · by_cases h0 : size = 0
      · have := countl_one_of_all_one hwf (fun i hi => by
          have hi2 : (i : Int) < size := hi
          omega)
        rw [this]
        exact congrArg some h0
      · have := countl_one_of_highest hwf (size - 1).toNat (by
            show ((size - 1).toNat : Int) < size
            omega) (bit_zeros _ _ _ _) (fun j hj hjs => by
            have hjs2 : (j : Int) < size := hjs
            omega)
        rw [this]
        show some (size - 1 - ((size - 1).toNat : Int)) = some 0
        congr 1
        omega
    · by_cases h0 : size = 0
      · have := countr_one_of_all_one hwf (fun i hi => by
          have hi2 : (i : Int) < size := hi
          omega)
        rw [this]
        exact congrArg some h0
      · have := countr_one_of_lowest hwf 0 (by
            show ((0 : Nat) : Int) < size
            omega) (bit_zeros _ _ _ _) (fun j hj => absurd hj (Nat.not_lt_zero j))
        rw [this]
        rfl

/-- Witness for C9: `igraph_bitset_init` with size 0 and a succeeding allocation; all five
queries return 0. -/
theorem queries_after_init_witness :
    igraph_bitset_init true ⟨7, none, 3⟩ 0 = (igraph_error_t.IGRAPH_SUCCESS, ⟨0, some [], 0⟩) ∧
    (igraph_bitset_popcount ub_count_masked ⟨0, some [], 0⟩ = some 0 ∧
      igraph_bitset_countl_zero ⟨0, some [], 0⟩ = some 0 ∧
      igraph_bitset_countr_zero ⟨0, some [], 0⟩ = some 0 ∧
      igraph_bitset_countl_one ⟨0, some [], 0⟩ = some 0 ∧
      igraph_bitset_countr_one ⟨0, some [], 0⟩ = some 0) :=
  ⟨by decide, queries_after_init ub_count_masked true ⟨7, none, 3⟩ ⟨0, some [], 0⟩ 0
    (by decide) (by decide)⟩

/-! ## Where the population count is right -/

theorem popcount_mask_eq (ub : Int → Nat) {b : igraph_bitset_t} {f : Nat}
    (hfb : final_block_size b = f) (hf : (1 ≤ f ∧ f < 32) ∨ f = 64) :
    popcount_mask ub b = 2 ^ f - 1 := by
  unfold popcount_mask IGRAPH_INTEGER_SIZE
  rw [hfb]
  rcases hf with ⟨hf1, hf32⟩ | hf64
  · rw [if_neg (by omega)]
    unfold int_shl_one
    rw [if_pos ⟨by omega, by omega⟩]
    have h1 : (2:Nat) ^ f < 2 ^ 32 := Nat.pow_lt_pow_right (by decide) hf32
    have h2 : (2:Nat) ^ f ≤ 2 ^ 31 := Nat.pow_le_pow_right (by decide) (by omega)
    have h3 : 0 < (2:Nat) ^ f := Nat.pos_pow_of_pos _ (by decide)
    simp only [Int.toNat_ofNat]
    unfold int_sub int_to_integer
    generalize (2:Nat) ^ f = x at h1 h2 h3
    have e : (x % 2 ^ 32 + (2 ^ 32 - 1 % 2 ^ 32)) % 2 ^ 32 = x - 1 := by omega
    rw [e, if_pos (by omega)]
  · subst hf64
    rw [if_pos (by norm_num)]
    decide

theorem highest_or_none (p : Nat → Bool) :
    ∀ n, (∀ i, i < n → p i = false) ∨
      ∃ h, h < n ∧ p h = true ∧ ∀ j, h < j → j < n → p j = false
  | 0 => Or.inl (fun i hi => absurd hi (Nat.not_lt_zero i))
  | n + 1 => by
    cases hp : p n with
    | true => exact Or.inr ⟨n, Nat.lt_succ_self n, hp, fun j h1 h2 => by omega⟩
    | false =>
      rcases highest_or_none p n with hz | ⟨h, hn, hh, hz⟩
      · left
        intro i hi
        rcases Nat.lt_or_ge i n with h1 | h1
        · exact hz i h1
        · rw [show i = n by omega]; exact hp
      · right
        refine ⟨h, by omega, hh, fun j h1 h2 => ?_⟩
        rcases Nat.lt_or_ge j n with h3 | h3
        · exact hz j h1 h3
        · rw [show j = n by omega]; exact hp

theorem lowest_or_none (p : Nat → Bool) :
    ∀ n, (∀ i, i < n → p i = false) ∨
      ∃ l, l < n ∧ p l = true ∧ ∀ j, j < l → p j = false
  | 0 => Or.inl (fun i hi => absurd hi (Nat.not_lt_zero i))
  | n + 1 => by
    rcases lowest_or_none p n with hz | ⟨l, hn, hl, hz⟩
    · cases hp : p n with
      | true => exact Or.inr ⟨n, Nat.lt_succ_self n, hp, hz⟩
      | false =>
        left
        intro i hi
        rcases Nat.lt_or_ge i n with h1 | h1
        · exact hz i h1
        · rw [show i = n by omega]; exact hp
    · exact Or.inr ⟨l, by omega, hl, hz⟩

/-- The four run-length queries do not see the padding: they agree on well-formed bitsets
of the same size whose bits below `size` agree. -/
theorem run_lengths_ignore_padding {a b : igraph_bitset_t} (ha : well_formed a)
    (hb : well_formed b) (hs : a.size = b.size)
    (hbits : ∀ i : Nat, (i : Int) < a.size → bit a i = bit b i) :
    igraph_bitset_countl_zero a = igraph_bitset_countl_zero b ∧
    igraph_bitset_countl_one a = igraph_bitset_countl_one b ∧
    igraph_bitset_countr_zero a = igraph_bitset_countr_zero b ∧
    igraph_bitset_countr_one a = igraph_bitset_countr_one b := by
  have h0 := ha.1
  have hlt : ∀ i : Nat, i < a.size.toNat ↔ (i : Int) < a.size := fun i => by omega
  refine ⟨?_, ?_, ?_, ?_⟩
  · rcases highest_or_none (fun i => bit a i) a.size.toNat with hz | ⟨h, hn, hh, hz⟩
    · rw [countl_zero_of_all_zero ha (fun i hi => hz i ((hlt i).mpr hi)),
        countl_zero_of_all_zero hb (fun i hi => by
          rw [← hbits i (hs ▸ hi)]; exact hz i ((hlt i).mpr (hs ▸ hi))), hs]
    · rw [countl_zero_of_highest ha h ((hlt h).mp hn) hh
          (fun j h1 h2 => hz j h1 ((hlt j).mpr h2)),
        countl_zero_of_highest hb h (hs ▸ (hlt h).mp hn) (by
          rw [← hbits h ((hlt h).mp hn)]; exact hh)
          (fun j h1 h2 => by
            rw [← hbits j (hs ▸ h2)]; exact hz j h1 ((hlt j).mpr (hs ▸ h2))), hs]
  · rcases highest_or_none (fun i => !bit a i) a.size.toNat with hz | ⟨h, hn, hh, hz⟩
    · have hz2 : ∀ i : Nat, (i : Int) < a.size → bit a i = true := fun i hi => by
        have := hz i ((hlt i).mpr hi)
        simpa using this
      rw [countl_one_of_all_one ha hz2,
        countl_one_of_all_one hb (fun i hi => by
          rw [← hbits i (hs ▸ hi)]; exact hz2 i (hs ▸ hi)), hs]
    · have hh2 : bit a h = false := by simpa using hh
      have hz2 : ∀ j : Nat, h < j → (j : Int) < a.size → bit a j = true :=
        fun j h1 h2 => by
          have := hz j h1 ((hlt j).mpr h2)
          simpa using this
      rw [countl_one_of_highest ha h ((hlt h).mp hn) hh2 hz2,
        countl_one_of_highest hb h (hs ▸ (hlt h).mp hn) (by
          rw [← hbits h ((hlt h).mp hn)]; exact hh2)
          (fun j h1 h2 => by rw [← hbits j (hs ▸ h2)]; exact hz2 j h1 (hs ▸ h2)), hs]
  · rcases lowest_or_none (fun i => bit a i) a.size.toNat with hz | ⟨l, hn, hl, hz⟩
    · rw [countr_zero_of_all_zero ha (fun i hi => hz i ((hlt i).mpr hi)),
        countr_zero_of_all_zero hb (fun i hi => by
          rw [← hbits i (hs ▸ hi)]; exact hz i ((hlt i).mpr (hs ▸ hi))), hs]
    · rw [countr_zero_of_lowest ha l ((hlt l).mp hn) hl hz,
        countr_zero_of_lowest hb l (hs ▸ (hlt l).mp hn) (by
          rw [← hbits l ((hlt l).mp hn)]; exact hl)
          (fun j h1 => by
            rw [← hbits j (by have := (hlt l).mp hn; omega)]; exact hz j h1)]
  · rcases lowest_or_none (fun i => !bit a i) a.size.toNat with hz | ⟨l, hn, hl, hz⟩
    · have hz2 : ∀ i : Nat, (i : Int) < a.size → bit a i = true := fun i hi => by
        have := hz i ((hlt i).mpr hi)
        simpa using this
      rw [countr_one_of_all_one ha hz2,
        countr_one_of_all_one hb (fun i hi => by
          rw [← hbits i (hs ▸ hi)]; exact hz2 i (hs ▸ hi)), hs]
    · have hl2 : bit a l = false := by simpa using hl
      have hz2 : ∀ j : Nat, j < l → bit a j = true := fun j h1 => by
        have := hz j h1
        simpa using this
      rw [countr_one_of_lowest ha l ((hlt l).mp hn) hl2 hz2,
        countr_one_of_lowest hb l (hs ▸ (hlt l).mp hn) (by
          rw [← hbits l ((hlt l).mp hn)]; exact hl2)
          (fun j h1 => by
            rw [← hbits j (by have := (hlt l).mp hn; omega)]; exact hz2 j h1)]

/-- On a platform where the `int` shift `1 << 33` loses the shifted bit, the mask of
`igraph_bitset_popcount` is the `int` -1 and covers the padding: the two bitsets of size 33
with storage word 0 and storage word `2 ^ 40` (a padding bit) agree on all 33 bits and
have population counts 0 and 1. It does not happen where the shift count is taken modulo
32 (`popcount_ignores_padding_count_masked`). -/
theorem popcount_sees_padding_where_bit_lost :
    well_formed ⟨33, some [0], 1⟩ ∧ well_formed ⟨33, some [2 ^ 40], 1⟩ ∧
    (∀ i : Nat, (i : Int) < 33 →
      bit ⟨33, some [0], 1⟩ i = bit ⟨33, some [2 ^ 40], 1⟩ i) ∧
    igraph_bitset_popcount ub_shifted_out ⟨33, some [0], 1⟩ = some 0 ∧
    igraph_bitset_popcount ub_shifted_out ⟨33, some [2 ^ 40], 1⟩ = some 1 := by
  refine ⟨by decide, by decide, ?_, by decide, by decide⟩
  intro i hi
  have hi2 : i < 33 := by omega
  interval_cases i <;> decide

/-! ## Further claims on the population count -/

/-- C11, which the code does not meet: `igraph_bitset_countl_one(b) = size` is claimed to
hold exactly when `igraph_bitset_popcount(b) = size`. On the well-formed bitset of size 32
with all 32 bits set `igraph_bitset_countl_one` returns 32, the size, but
`igraph_bitset_popcount` does not return 32, whatever the platform makes of the `int`
shift `1 << 32`: it returns 0 where the shift count is taken modulo 32 and 64 where the
shifted bit is lost. -/
theorem countl_one_popcount_disagree :
    well_formed ⟨32, some [2 ^ 64 - 1], 1⟩ ∧
    igraph_bitset_countl_one ⟨32, some [2 ^ 64 - 1], 1⟩ = some 32 ∧
    (∀ ub : Int → Nat,
      ¬ (igraph_bitset_countl_one ⟨32, some [2 ^ 64 - 1], 1⟩ = some 32 ↔
          igraph_bitset_popcount ub ⟨32, some [2 ^ 64 - 1], 1⟩ = some 32)) ∧
    igraph_bitset_popcount ub_count_masked ⟨32, some [2 ^ 64 - 1], 1⟩ = some 0 ∧
    igraph_bitset_popcount ub_shifted_out ⟨32, some [2 ^ 64 - 1], 1⟩ = some 64 := by
  refine ⟨by decide, by decide, ?_, by decide, by decide⟩
  intro ub hiff
  have hc := hiff.mp (by decide)
  rw [popcount_size_32] at hc
  apply popcount_int_mask_ne (int_sub (ub 32 % 2 ^ 32) 1) (int_sub_lt _ _)
  have h2 := Option.some.inj hc
  exact_mod_cast h2

/-! ## Reads stay inside the storage -/

theorem VECTOR_out_of_range {b : igraph_bitset_t} (h : well_formed b) (i : Int)
    (hi : i < 0 ∨ IGRAPH_BITNSLOTS b.size ≤ i) : VECTOR b i = none := by
  have hl := h.2.2.1
  unfold VECTOR
  rw [wf_stor h]
  simp only
  by_cases h0 : 0 ≤ i
  · rw [if_pos h0]
    apply List.getElem?_eq_none
    omega
  · rw [if_neg h0]

theorem countl_zero_returns {b : igraph_bitset_t} (h : well_formed b) :
    ∃ r, igraph_bitset_countl_zero b = some r := by
  have h0 := h.1
  rcases highest_or_none (fun i => bit b i) b.size.toNat with hz | ⟨t, hn, hh, hz⟩
  · exact ⟨_, countl_zero_of_all_zero h (fun i hi => hz i (by omega))⟩
  · exact ⟨_, countl_zero_of_highest h t (by omega) hh (fun j h1 h2 => hz j h1 (by omega))⟩

theorem countr_zero_returns {b : igraph_bitset_t} (h : well_formed b) :
    ∃ r, igraph_bitset_countr_zero b = some r := by
  have h0 := h.1
  rcases lowest_or_none (fun i => bit b i) b.size.toNat with hz | ⟨t, hn, hh, hz⟩
  · exact ⟨_, countr_zero_of_all_zero h (fun i hi => hz i (by omega))⟩
  · exact ⟨_, countr_zero_of_lowest h t (by omega) hh hz⟩

theorem countl_one_returns {b : igraph_bitset_t} (h : well_formed b) :
    ∃ r, igraph_bitset_countl_one b = some r := by
  rw [countl_one_complement h]
  exact countl_zero_returns (wf_complement h)

theorem countr_one_returns {b : igraph_bitset_t} (h : well_formed b) :
    ∃ r, igraph_bitset_countr_one b = some r := by
  rw [countr_one_complement h]
  exact countr_zero_returns (wf_complement h)

theorem popcount_returns (ub : Int → Nat) {b : igraph_bitset_t} (h : well_formed b) :
    ∃ r, igraph_bitset_popcount ub b = some r := by
  by_cases hs : b.size = 0
  · exact ⟨_, popcount_empty ub h hs⟩
  · obtain ⟨L, f, hlen, _⟩ := wf_shape h hs
    exact ⟨_, popcount_words ub h hlen hs⟩

/-- C12: on a well-formed bitset a read of the storage at a word index outside
`0 <= k < IGRAPH_BITNSLOTS(size)` yields `none`, and each of the five queries returns a
value, so that none of them reads outside the storage; and on a bitset of size 0 the five
queries return 0 even when the storage pointer is NULL, so that they read no word. -/
theorem queries_read_in_range (ub : Int → Nat) (b : igraph_bitset_t) (hwf : well_formed b) :
    (∀ i : Int, i < 0 ∨ IGRAPH_BITNSLOTS b.size ≤ i → VECTOR b i = none) ∧
    ((∃ r, igraph_bitset_popcount ub b = some r) ∧
      (∃ r, igraph_bitset_countl_zero b = some r) ∧
      (∃ r, igraph_bitset_countl_one b = some r) ∧
      (∃ r, igraph_bitset_countr_zero b = some r) ∧
      (∃ r, igraph_bitset_countr_one b = some r)) ∧
    (∀ e : Int, igraph_bitset_popcount ub ⟨0, none, e⟩ = some 0 ∧
      igraph_bitset_countl_zero ⟨0, none, e⟩ = some 0 ∧
      igraph_bitset_countl_one ⟨0, none, e⟩ = some 0 ∧
      igraph_bitset_countr_zero ⟨0, none, e⟩ = some 0 ∧
      igraph_bitset_countr_one ⟨0, none, e⟩ = some 0) :=
  ⟨VECTOR_out_of_range hwf,
    ⟨popcount_returns ub hwf, countl_zero_returns hwf, countl_one_returns hwf,
      countr_zero_returns hwf, countr_one_returns hwf⟩,
    fun _ => ⟨rfl, rfl, rfl, rfl, rfl⟩⟩

/-- Witness for C12: size 70 with two storage words; a read at word index 2 fails and the
leading-zero query returns a value. -/
theorem queries_read_in_range_witness :
    well_formed ⟨70, some [5, 2 ^ 63 + 3], 2⟩ ∧
    VECTOR ⟨70, some [5, 2 ^ 63 + 3], 2⟩ 2 = none ∧
    ∃ r, igraph_bitset_countl_zero ⟨70, some [5, 2 ^ 63 + 3], 2⟩ = some r :=
  ⟨by decide,
    (queries_read_in_range ub_count_masked ⟨70, some [5, 2 ^ 63 + 3], 2⟩ (by decide)).1 2
      (Or.inr (by decide)),
    (queries_read_in_range ub_count_masked ⟨70, some [5, 2 ^ 63 + 3], 2⟩ (by decide)).2.1.2.1⟩

/-! ## Results of the combinators -/

theorem wf_with_words {dest : igraph_bitset_t} (hd : well_formed dest) (wr : List Nat)
    (hlen : wr.length = (words dest).length)
    (hlt : ∀ k, k < (words dest).length → wr.getD k 0 < 2 ^ 64) :
    well_formed { dest with stor_begin := some wr } := by
  refine ⟨hd.1, rfl, ?_, ?_⟩
  · show ((wr.length : Nat) : Int) = IGRAPH_BITNSLOTS dest.size
    rw [hlen]; exact hd.2.2.1
  · intro w hw
    have hw2 : w ∈ wr := hw
    obtain ⟨k, hk, rfl⟩ := List.getElem_of_mem hw2
    have := hlt k (by omega)
    rwa [List.getD_eq_getElem _ _ hk] at this

theorem not_full {dest src : igraph_bitset_t}
    (hd : well_formed dest) (h1 : well_formed src) (hs1 : src.size = dest.size) :
    ∃ d : igraph_bitset_t, igraph_bitset_not dest src = some d ∧ well_formed d ∧
      d.size = dest.size ∧
      ∀ i : Nat, (i : Int) < dest.size → bit d i = !bit src i := by
  obtain ⟨wr, hr, hrl, hrk⟩ := not_result hd h1 hs1
  have hwf := wf_with_words hd wr hrl (fun k hk => by
    rw [hrk k hk]; exact word_not_lt _ (wf_word_lt h1 k))
  refine ⟨_, hr, hwf, rfl, ?_⟩
  intro i hi
  have hk := index_lt_length hd i hi
  have hlt : i % 64 < 64 := Nat.mod_lt _ (by decide)
  show (wr.getD (i / 64) 0).testBit (i % 64) = _
  rw [hrk _ hk, testBit_word_not _ (wf_word_lt h1 _), decide_eq_true hlt, Bool.true_and]
  rfl

theorem binary_full (op : Nat → Nat → Nat)
    (hlt : ∀ x y, x < 2 ^ 64 → y < 2 ^ 64 → op x y < 2 ^ 64)
    {dest src1 src2 : igraph_bitset_t}
    (hd : well_formed dest) (h1 : well_formed src1) (h2 : well_formed src2)
    (hs1 : src1.size = dest.size) (hs2 : src2.size = dest.size) :
    ∃ d : igraph_bitset_t,
      binary_loop op src1 src2 (IGRAPH_BITNSLOTS dest.size).toNat 0 dest = some d ∧
      well_formed d ∧ d.size = dest.size ∧
      ∀ k, k < (words dest).length →
        (words d).getD k 0 = op ((words src1).getD k 0) ((words src2).getD k 0) := by
  obtain ⟨wr, hr, hrl, hrk⟩ := binary_result op hd h1 h2 hs1 hs2
  have hwf := wf_with_words hd wr hrl (fun k hk => by
    rw [hrk k hk]; exact hlt _ _ (wf_word_lt h1 k) (wf_word_lt h2 k))
  exact ⟨_, hr, hwf, rfl, hrk⟩

theorem binary_loop_comm (op : Nat → Nat → Nat) (hop : ∀ x y, op x y = op y x)
    (src1 src2 : igraph_bitset_t) :
    ∀ (n : Nat) (i : Int) (dest : igraph_bitset_t),
      binary_loop op src1 src2 n i dest = binary_loop op src2 src1 n i dest
  | 0, _, _ => rfl
  | n + 1, i, dest => by
    simp only [binary_loop]
    cases VECTOR src1 i with
    | none => cases VECTOR src2 i <;> rfl
    | some x =>
      cases VECTOR src2 i with
      | none => rfl
      | some y =>
        simp only [hop x y]
        cases VECTOR_set dest i (op y x) with
        | none => rfl
        | some d => exact binary_loop_comm op hop src1 src2 n (i + 1) d

/-! ## Algebraic claims on the combinators -/

/-- C13: for well-formed `b`, `t` and `r` of the same size, `igraph_bitset_not(t, b)`
followed by `igraph_bitset_not(r, t)` leaves in `r` the bits of `b`: bit `i` of `r` equals
bit `i` of `b` for every `i` below `size`. -/
theorem not_involution (b t r : igraph_bitset_t) (hb : well_formed b) (ht : well_formed t)
    (hr : well_formed r) (hst : t.size = b.size) (hsr : r.size = b.size) :
    ∃ t1 r1 : igraph_bitset_t, igraph_bitset_not t b = some t1 ∧
      igraph_bitset_not r t1 = some r1 ∧
      ∀ i : Nat, (i : Int) < b.size → bit r1 i = bit b i := by
  obtain ⟨t1, ht1, hwt1, hst1, hbt1⟩ := not_full ht hb hst.symm
  obtain ⟨r1, hr1, _, _, hbr1⟩ := not_full hr hwt1 (by rw [hst1, hst, hsr])
  refine ⟨t1, r1, ht1, hr1, ?_⟩
  intro i hi
  rw [hbr1 i (by rw [hsr]; exact hi), hbt1 i (by rw [hst]; exact hi), Bool.not_not]

/-- Witness for C13: size 70, padding bits set in `b`, zeroed scratch bitsets. -/
theorem not_involution_witness :
    (well_formed ⟨70, some [5, 2 ^ 63 + 3], 2⟩ ∧ well_formed ⟨70, some [0, 0], 2⟩) ∧
    ∃ t1 r1 : igraph_bitset_t,
      igraph_bitset_not ⟨70, some [0, 0], 2⟩ ⟨70, some [5, 2 ^ 63 + 3], 2⟩ = some t1 ∧
      igraph_bitset_not ⟨70, some [0, 0], 2⟩ t1 = some r1 ∧
      ∀ i : Nat, (i : Int) < 70 → bit r1 i = bit ⟨70, some [5, 2 ^ 63 + 3], 2⟩ i :=
  ⟨⟨by decide, by decide⟩,
    not_involution ⟨70, some [5, 2 ^ 63 + 3], 2⟩ ⟨70, some [0, 0], 2⟩ ⟨70, some [0, 0], 2⟩
      (by decide) (by decide) (by decide) rfl rfl⟩

/-- C14: for well-formed `dest`, `a`, `b` of the same size, each of `igraph_bitset_or`,
`igraph_bitset_and` and `igraph_bitset_xor` returns the same `dest` (same size, same
storage words) for the sources `a, b` as for the sources `b, a`. -/
theorem or_and_xor_commutative (dest a b : igraph_bitset_t) (hd : well_formed dest)
    (ha : well_formed a) (hb : well_formed b) (hsa : a.size = dest.size)
    (hsb : b.size = dest.size) :
    (∃ d, igraph_bitset_or dest a b = some d ∧ igraph_bitset_or dest b a = some d) ∧
    (∃ d, igraph_bitset_and dest a b = some d ∧ igraph_bitset_and dest b a = some d) ∧
    (∃ d, igraph_bitset_xor dest a b = some d ∧ igraph_bitset_xor dest b a = some d) := by
  refine ⟨?_, ?_, ?_⟩
  · obtain ⟨wr, hr, _, _⟩ := binary_result (fun x y => x ||| y) hd ha hb hsa hsb
    refine ⟨_, hr, ?_⟩
    unfold igraph_bitset_or
    rw [← binary_loop_comm _ (fun x y => Nat.or_comm x y)]
    exact hr
  · obtain ⟨wr, hr, _, _⟩ := binary_result (fun x y => x &&& y) hd ha hb hsa hsb
    refine ⟨_, hr, ?_⟩
    unfold igraph_bitset_and
    rw [← binary_loop_comm _ (fun x y => Nat.and_comm x y)]
    exact hr
  · obtain ⟨wr, hr, _, _⟩ := binary_result (fun x y => x ^^^ y) hd ha hb hsa hsb
    refine ⟨_, hr, ?_⟩
    unfold igraph_bitset_xor
    rw [← binary_loop_comm _ (fun x y => Nat.xor_comm x y)]
    exact hr

/-- Witness for C14: size 5, OR of two sources with padding bits set, in both orders. -/
theorem or_and_xor_commutative_witness :
    (well_formed ⟨5, some [0], 1⟩ ∧ well_formed ⟨5, some [2 ^ 63 + 5], 1⟩ ∧
      well_formed ⟨5, some [2 ^ 40 + 20], 1⟩) ∧
    ∃ d, igraph_bitset_or ⟨5, some [0], 1⟩ ⟨5, some [2 ^ 63 + 5], 1⟩
        ⟨5, some [2 ^ 40 + 20], 1⟩ = some d ∧
      igraph_bitset_or ⟨5, some [0], 1⟩ ⟨5, some [2 ^ 40 + 20], 1⟩
        ⟨5, some [2 ^ 63 + 5], 1⟩ = some d :=
  ⟨⟨by decide, by decide, by decide⟩,
    (or_and_xor_commutative ⟨5, some [0], 1⟩ ⟨5, some [2 ^ 63 + 5], 1⟩
      ⟨5, some [2 ^ 40 + 20], 1⟩ (by decide) (by decide) (by decide) rfl rfl).1⟩

/-- C15: for well-formed `dest`, `b` and `ones` of the same size, (1) if every bit of
`ones` below `size` is 1, `igraph_bitset_and(dest, b, ones)` returns a `dest` whose bit `i`
equals bit `i` of `b` for every `i` below `size`; (2) `igraph_bitset_xor(dest, b, b)`
returns a `dest` whose bit `i` is 0 for every `i` below `size`. -/
theorem and_ones_xor_self (dest b ones : igraph_bitset_t) (hd : well_formed dest)
    (hb : well_formed b) (ho : well_formed ones) (hsb : b.size = dest.size)
    (hso : ones.size = dest.size) :
    ((∀ i : Nat, (i : Int) < dest.size → bit ones i = true) →
      ∃ d, igraph_bitset_and dest b ones = some d ∧
        ∀ i : Nat, (i : Int) < dest.size → bit d i = bit b i) ∧
    (∃ d, igraph_bitset_xor dest b b = some d ∧
      ∀ i : Nat, (i : Int) < dest.size → bit d i = false) := by
  constructor
  · intro hones
    obtain ⟨d, hr, _, hbits⟩ := binary_bits (fun x y => x &&& y) _ Nat.testBit_and hd hb ho hsb hso
    refine ⟨d, hr, fun i hi => ?_⟩
    rw [hbits i hi, hones i hi, Bool.and_true]
  · obtain ⟨d, hr, _, hbits⟩ := binary_bits (fun x y => x ^^^ y) _ Nat.testBit_xor hd hb hb hsb hsb
    refine ⟨d, hr, fun i hi => ?_⟩
    rw [hbits i hi]
    cases bit b i <;> rfl

/-- Witness for C15: size 5, `ones` with its five bits set and padding bit 5 clear. -/
theorem and_ones_xor_self_witness :
    (well_formed ⟨5, some [0], 1⟩ ∧ well_formed ⟨5, some [2 ^ 63 + 5], 1⟩ ∧
      well_formed ⟨5, some [31], 1⟩) ∧
    ∃ d, igraph_bitset_and ⟨5, some [0], 1⟩ ⟨5, some [2 ^ 63 + 5], 1⟩ ⟨5, some [31], 1⟩ =
        some d ∧
      ∀ i : Nat, (i : Int) < 5 → bit d i = bit ⟨5, some [2 ^ 63 + 5], 1⟩ i :=
  ⟨⟨by decide, by decide, by decide⟩,
    (and_ones_xor_self ⟨5, some [0], 1⟩ ⟨5, some [2 ^ 63 + 5], 1⟩ ⟨5, some [31], 1⟩
      (by decide) (by decide) (by decide) rfl rfl).1 (fun i hi => by
        have h3 : (i : Int) < 5 := hi
        have hi2 : i < 5 := by omega
        interval_cases i <;> decide)⟩

/-! ## Claims on the lifecycle -/

/-- C16: `igraph_bitset_destroy` on a bitset with non-empty storage sets `size` to 0 and
`stor_begin` to NULL; on a bitset whose storage is already empty it changes no field; so
destroying twice is the same as destroying once. -/
theorem destroy_idempotent (b : igraph_bitset_t) (size e : Int) (ws : List Nat) :
    igraph_bitset_destroy ⟨size, some ws, e⟩ = ⟨0, none, e⟩ ∧
    igraph_bitset_destroy ⟨size, none, e⟩ = ⟨size, none, e⟩ ∧
    igraph_bitset_destroy (igraph_bitset_destroy b) = igraph_bitset_destroy b := by
  refine ⟨rfl, rfl, ?_⟩
  obtain ⟨s, st, e1⟩ := b
  cases st <;> rfl

/-- C17: for every `size >= 0`, `igraph_bitset_init` returns `IGRAPH_SUCCESS` exactly when
the allocation succeeds. Then the bitset has its `size` field equal to `size` and a storage
of `n` words, all 0, where `n` is the least number of 64-bit words holding `size` bits.
When the allocation fails it returns `IGRAPH_ENOMEM` and leaves `stor_begin` NULL, so that
`igraph_bitset_destroy` changes nothing afterwards. -/
theorem init_contract (alloc_ok : Bool) (bitset : igraph_bitset_t) (size : Int)
    (hs : 0 ≤ size) :
    ((igraph_bitset_init alloc_ok bitset size).1 = igraph_error_t.IGRAPH_SUCCESS ↔
      alloc_ok = true) ∧
    (alloc_ok = true →
      (igraph_bitset_init alloc_ok bitset size).2.size = size ∧
      ∃ n : Nat, (igraph_bitset_init alloc_ok bitset size).2.stor_begin =
          some (List.replicate n 0) ∧
        size ≤ 64 * (n : Int) ∧ 64 * (n : Int) < size + 64) ∧
    (alloc_ok = false →
      (igraph_bitset_init alloc_ok bitset size).1 = igraph_error_t.IGRAPH_ENOMEM ∧
      (igraph_bitset_init alloc_ok bitset size).2.stor_begin = none ∧
      igraph_bitset_destroy (igraph_bitset_init alloc_ok bitset size).2 =
        (igraph_bitset_init alloc_ok bitset size).2) := by
  cases alloc_ok with
  | true =>
    rw [init_success]
    refine ⟨by simp, fun _ => ⟨rfl, (IGRAPH_BITNSLOTS size).toNat, rfl, ?_⟩,
      fun h => Bool.noConfusion h⟩
    have hsl : IGRAPH_BITNSLOTS size = (size + 63) / 64 := by
      unfold IGRAPH_BITNSLOTS IGRAPH_INTEGER_SIZE
      rw [Int.tdiv_eq_ediv (by omega) (by decide)]
      congr 1
      omega
    omega
  | false =>
    rw [init_failure]
    exact ⟨by simp, ⟨fun h => Bool.noConfusion h, fun _ => ⟨rfl, rfl, rfl⟩⟩⟩

/-- Witness for C17: size 65 with a succeeding allocation; the bitset has size 65. -/
theorem init_contract_witness :
    (0 : Int) ≤ 65 ∧ (igraph_bitset_init true ⟨7, none, 3⟩ 65).2.size = 65 :=
  ⟨by decide, ((init_contract true ⟨7, none, 3⟩ 65 (by decide)).2.1 rfl).1⟩

/-! ## Run lengths after a complement -/

theorem complement_complement (b : igraph_bitset_t) : complement (complement b) = b := by
  obtain ⟨s, st, e⟩ := b
  cases st with
  | none => rfl
  | some ws =>
    simp only [complement, Option.map_some', List.map_map]
    congr 2
    rw [show (word_not ∘ word_not) = id from funext word_not_not]
    exact List.map_id ws

/-- C19: for well-formed `dest` and `src` of the same size, whatever the padding of `src`,
the `dest` that `igraph_bitset_not(dest, src)` returns has the run lengths of `src` with
zeros and ones exchanged: its `countl_zero` is the `countl_one` of `src`, its `countl_one`
the `countl_zero` of `src`, and likewise for `countr_zero` and `countr_one`. -/
theorem not_swaps_run_lengths (dest src : igraph_bitset_t) (hd : well_formed dest)
    (hsrc : well_formed src) (hs : src.size = dest.size) :
    ∃ d, igraph_bitset_not dest src = some d ∧
      igraph_bitset_countl_zero d = igraph_bitset_countl_one src ∧
      igraph_bitset_countl_one d = igraph_bitset_countl_zero src ∧
      igraph_bitset_countr_zero d = igraph_bitset_countr_one src ∧
      igraph_bitset_countr_one d = igraph_bitset_countr_zero src := by
  obtain ⟨d, hr, hwd, hsd, hbits⟩ := not_full hd hsrc hs
  have hwc := wf_complement hsrc
  have hsz : d.size = (complement src).size := by rw [hsd, ← hs]; rfl
  have hagree : ∀ i : Nat, (i : Int) < d.size → bit d i = bit (complement src) i :=
    fun i hi => by
      rw [hbits i (by rw [← hsd]; exact hi), bit_complement hsrc i (by rw [hs, ← hsd]; exact hi)]
  obtain ⟨h1, h2, h3, h4⟩ := run_lengths_ignore_padding hwd hwc hsz hagree
  refine ⟨d, hr, ?_, ?_, ?_, ?_⟩
  · rw [h1, countl_one_complement hsrc]
  · rw [h2, countl_one_complement hwc, complement_complement]
  · rw [h3, countr_one_complement hsrc]
  · rw [h4, countr_one_complement hwc, complement_complement]

/-- Witness for C19: size 70, source with padding bit 63 of the last word set. -/
theorem not_swaps_run_lengths_witness :
    (well_formed ⟨70, some [0, 0], 2⟩ ∧ well_formed ⟨70, some [5, 2 ^ 63 + 3], 2⟩) ∧
    ∃ d, igraph_bitset_not ⟨70, some [0, 0], 2⟩ ⟨70, some [5, 2 ^ 63 + 3], 2⟩ = some d ∧
      igraph_bitset_countl_zero d = igraph_bitset_countl_one ⟨70, some [5, 2 ^ 63 + 3], 2⟩ ∧
      igraph_bitset_countl_one d = igraph_bitset_countl_zero ⟨70, some [5, 2 ^ 63 + 3], 2⟩ ∧
      igraph_bitset_countr_zero d = igraph_bitset_countr_one ⟨70, some [5, 2 ^ 63 + 3], 2⟩ ∧
      igraph_bitset_countr_one d = igraph_bitset_countr_zero ⟨70, some [5, 2 ^ 63 + 3], 2⟩ :=
  ⟨⟨by decide, by decide⟩,
    not_swaps_run_lengths ⟨70, some [0, 0], 2⟩ ⟨70, some [5, 2 ^ 63 + 3], 2⟩
      (by decide) (by decide) rfl⟩

/-! ## The cross-word scenario -/

/-- C18: on the bitset of size 65 whose first word is 0 and whose second word has its
lowest bit set, whatever its other (padding) bits, `igraph_bitset_countl_zero` returns 0,
`igraph_bitset_countl_one` returns 1, `igraph_bitset_countr_zero` returns 64 and
`igraph_bitset_popcount` returns 1. -/
theorem cross_word_scenario (ub : Int → Nat) (w : Nat) (e : Int) (hw : w < 2 ^ 64)
    (hbit : w.testBit 0 = true) :
    igraph_bitset_countl_zero ⟨65, some [0, w], e⟩ = some 0 ∧
    igraph_bitset_countl_one ⟨65, some [0, w], e⟩ = some 1 ∧
    igraph_bitset_countr_zero ⟨65, some [0, w], e⟩ = some 64 ∧
    igraph_bitset_popcount ub ⟨65, some [0, w], e⟩ = some 1 := by
  have hwf : well_formed ⟨65, some [0, w], e⟩ := by
    refine ⟨by show (0 : Int) ≤ 65; decide, rfl,
      by show ((2 : Nat) : Int) = IGRAPH_BITNSLOTS 65; decide, ?_⟩
    intro x hx
    have hx2 : x ∈ [0, w] := hx
    simp only [List.mem_cons, List.mem_singleton, List.not_mem_nil, or_false] at hx2
    rcases hx2 with rfl | rfl
    · decide
    · exact hw
  have hlow : ∀ j : Nat, j < 64 → bit ⟨65, some [0, w], e⟩ j = false := fun j hj => by
    unfold bit
    rw [show j / 64 = 0 by omega]
    simp [words]
  have h64 : bit ⟨65, some [0, w], e⟩ 64 = true := by
    unfold bit
    simpa [words] using hbit
  refine ⟨?_, ?_, ?_, ?_⟩
  · exact countl_zero_of_highest hwf 64 (by show ((64 : Nat) : Int) < 65; decide) h64 (fun j h1 h2 => by
      have h3 : (j : Int) < 65 := h2
      omega)
  · exact countl_one_of_highest hwf 63 (by show ((63 : Nat) : Int) < 65; decide)
      (hlow 63 (by decide)) (fun j h1 h2 => by
      have h3 : (j : Int) < 65 := h2
      rw [show j = 64 by omega]; exact h64)
  · exact countr_zero_of_lowest hwf 64 (by show ((64 : Nat) : Int) < 65; decide) h64 hlow
  · have hlen : (words ⟨65, some [0, w], e⟩).length = 1 + 1 := rfl
    have hfb : final_block_size ⟨65, some [0, w], e⟩ = ((1 : Nat) : Int) := rfl
    rw [popcount_words ub hwf hlen (by show (65 : Int) ≠ 0; decide), popcount_mask_eq ub hfb (Or.inl (by decide))]
    have h1 : (2 ^ 1 - 1) &&& (words ⟨65, some [0, w], e⟩).getD 1 0 = 1 := by
      show (2 ^ 1 - 1) &&& w = 1
      rw [Nat.and_comm]
      exact and_two_pow_of_testBit w 0 hbit
    rw [h1]
    rfl

/-- Witness for C18: the second word is `2 ^ 63 + 2 ^ 7 + 1`, padding bits 7 and 63 set. -/
theorem cross_word_scenario_witness :
    (2 ^ 63 + 2 ^ 7 + 1 < 2 ^ 64 ∧ (2 ^ 63 + 2 ^ 7 + 1).testBit 0 = true) ∧
    (igraph_bitset_countl_zero ⟨65, some [0, 2 ^ 63 + 2 ^ 7 + 1], 2⟩ = some 0 ∧
      igraph_bitset_countl_one ⟨65, some [0, 2 ^ 63 + 2 ^ 7 + 1], 2⟩ = some 1 ∧
      igraph_bitset_countr_zero ⟨65, some [0, 2 ^ 63 + 2 ^ 7 + 1], 2⟩ = some 64 ∧
      igraph_bitset_popcount ub_shifted_out ⟨65, some [0, 2 ^ 63 + 2 ^ 7 + 1], 2⟩ = some 1) :=
  ⟨⟨by decide, by decide⟩,
    cross_word_scenario ub_shifted_out (2 ^ 63 + 2 ^ 7 + 1) 2 (by decide) (by decide)⟩

/-! ## Inclusion and exclusion -/

theorem countP_or_and {α : Type} (p q : α → Bool) :
    ∀ l : List α, l.countP (fun x => p x || q x) + l.countP (fun x => p x && q x) =
      l.countP p + l.countP q
  | [] => rfl
  | a :: l => by
    have ih := countP_or_and p q l
    simp only [List.countP_cons]
    cases p a <;> cases q a <;> simp <;> omega

theorem popcount_or_and (x y : Nat) :
    IGRAPH_POPCOUNT (x ||| y) + IGRAPH_POPCOUNT (x &&& y) =
      IGRAPH_POPCOUNT x + IGRAPH_POPCOUNT y := by
  unfold IGRAPH_POPCOUNT
  rw [show (fun k => (x ||| y).testBit k) = (fun k => x.testBit k || y.testBit k) from
      funext (fun k => Nat.testBit_or x y k),
    show (fun k => (x &&& y).testBit k) = (fun k => x.testBit k && y.testBit k) from
      funext (fun k => Nat.testBit_and x y k)]
  exact countP_or_and _ _ _

theorem popcount_sum_take_succ (ws : List Nat) (L : Nat) (hL : L < ws.length) :
    popcount_sum (ws.take (L + 1)) = popcount_sum (ws.take L) + IGRAPH_POPCOUNT (ws.getD L 0) := by
  rw [List.take_succ, List.getElem?_eq_getElem hL, List.getD_eq_getElem _ _ hL]
  unfold popcount_sum
  rw [List.map_append, List.sum_append]
  simp

theorem popcount_sum_or_and (wu wn wa wb : List Nat) :
    ∀ L, L ≤ wu.length → L ≤ wn.length → L ≤ wa.length → L ≤ wb.length →
      (∀ k, k < L → wu.getD k 0 = wa.getD k 0 ||| wb.getD k 0) →
      (∀ k, k < L → wn.getD k 0 = wa.getD k 0 &&& wb.getD k 0) →
      popcount_sum (wu.take L) + popcount_sum (wn.take L) =
        popcount_sum (wa.take L) + popcount_sum (wb.take L)
  | 0, _, _, _, _, _, _ => by simp [popcount_sum]
  | L + 1, hu, hn, ha, hb, hor, hand => by
    have ih := popcount_sum_or_and wu wn wa wb L (by omega) (by omega) (by omega) (by omega)
      (fun k hk => hor k (by omega)) (fun k hk => hand k (by omega))
    have hw := popcount_or_and (wa.getD L 0) (wb.getD L 0)
    rw [popcount_sum_take_succ wu L hu, popcount_sum_take_succ wn L hn,
      popcount_sum_take_succ wa L ha, popcount_sum_take_succ wb L hb,
      hor L (Nat.lt_succ_self L), hand L (Nat.lt_succ_self L)]
    omega

theorem popcount_mask_congr (ub : Int → Nat) {a b : igraph_bitset_t} (h : a.size = b.size) :
    popcount_mask ub a = popcount_mask ub b := by
  unfold popcount_mask final_block_size
  rw [h]

/-- C20: for well-formed `a`, `b`, `u`, `n` of the same size, whatever the padding of `a`
and `b`, with `u` the result of `igraph_bitset_or(u, a, b)` and `n` the result of
`igraph_bitset_and(n, a, b)`, `popcount(u) + popcount(n) = popcount(a) + popcount(b)`.
It holds for every behaviour of the `int` shift in the mask, since the four counts use the
same mask. -/
theorem popcount_inclusion_exclusion (ub : Int → Nat) (a b u n : igraph_bitset_t)
    (ha : well_formed a) (hb : well_formed b) (hu : well_formed u) (hn : well_formed n)
    (hsa : a.size = u.size) (hsb : b.size = u.size) (hsn : n.size = u.size) :
    ∃ (u1 n1 : igraph_bitset_t) (pu pn pa pb : Int),
      igraph_bitset_or u a b = some u1 ∧ igraph_bitset_and n a b = some n1 ∧
      igraph_bitset_popcount ub u1 = some pu ∧ igraph_bitset_popcount ub n1 = some pn ∧
      igraph_bitset_popcount ub a = some pa ∧ igraph_bitset_popcount ub b = some pb ∧
      pu + pn = pa + pb := by
  obtain ⟨u1, hru, hwu, hsu, hku⟩ := binary_full (fun x y => x ||| y)
    (fun x y hx hy => Nat.or_lt_two_pow hx hy) hu ha hb hsa hsb
  obtain ⟨n1, hrn, hwn, hsn1, hkn⟩ := binary_full (fun x y => x &&& y)
    (fun x y _ hy => mask_and_lt x y hy) hn ha hb (hsa.trans hsn.symm) (hsb.trans hsn.symm)
  by_cases h0 : u.size = 0
  · exact ⟨u1, n1, 0, 0, 0, 0, hru, hrn, popcount_empty ub hwu (hsu.trans h0),
      popcount_empty ub hwn ((hsn1.trans hsn).trans h0), popcount_empty ub ha (hsa.trans h0),
      popcount_empty ub hb (hsb.trans h0), rfl⟩
  · have hla := wf_length ha
    have hlb := wf_length hb
    have hlu := wf_length hu
    have hln := wf_length hn
    have hlu1 := wf_length hwu
    have hln1 := wf_length hwn
    rw [hsa] at hla
    rw [hsb] at hlb
    rw [hsn] at hln
    rw [hsu] at hlu1
    rw [hsn1, hsn] at hln1
    obtain ⟨L, f, hlen, _⟩ := wf_shape hu h0
    have hma : popcount_mask ub a = popcount_mask ub u := popcount_mask_congr ub hsa
    have hmb : popcount_mask ub b = popcount_mask ub u := popcount_mask_congr ub hsb
    have hmu : popcount_mask ub u1 = popcount_mask ub u := popcount_mask_congr ub hsu
    have hmn : popcount_mask ub n1 = popcount_mask ub u :=
      popcount_mask_congr ub (hsn1.trans hsn)
    have hsum := popcount_sum_or_and (words u1) (words n1) (words a) (words b) L
      (by omega) (by omega) (by omega) (by omega)
      (fun k hk => hku k (by omega)) (fun k hk => hkn k (by omega))
    have hlast := popcount_or_and (popcount_mask ub u &&& (words a).getD L 0)
      (popcount_mask ub u &&& (words b).getD L 0)
    have e1 : popcount_mask ub u &&& (words u1).getD L 0 =
        (popcount_mask ub u &&& (words a).getD L 0) |||
          (popcount_mask ub u &&& (words b).getD L 0) := by
      rw [hku L (by omega)]
      exact Nat.and_or_distrib_left _ _ _
    have e2 : popcount_mask ub u &&& (words n1).getD L 0 =
        (popcount_mask ub u &&& (words a).getD L 0) &&&
          (popcount_mask ub u &&& (words b).getD L 0) := by
      rw [hkn L (by omega)]
      apply Nat.eq_of_testBit_eq
      intro i
      simp only [Nat.testBit_and]
      cases (popcount_mask ub u).testBit i <;> simp
    refine ⟨u1, n1, _, _, _, _, hru, hrn,
      popcount_words ub hwu (L := L) (by omega) (by rw [hsu]; exact h0),
      popcount_words ub hwn (L := L) (by omega) (by rw [hsn1, hsn]; exact h0),
      popcount_words ub ha (L := L) (by omega) (by rw [hsa]; exact h0),
      popcount_words ub hb (L := L) (by omega) (by rw [hsb]; exact h0), ?_⟩
    rw [hma, hmb, hmu, hmn, e1, e2]
    have hsum2 : ((popcount_sum ((words u1).take L) : Nat) : Int) +
        (popcount_sum ((words n1).take L) : Nat) =
        (popcount_sum ((words a).take L) : Nat) + (popcount_sum ((words b).take L) : Nat) := by
      exact_mod_cast hsum
    have hlast2 : ((IGRAPH_POPCOUNT ((popcount_mask ub u &&& (words a).getD L 0) |||
          (popcount_mask ub u &&& (words b).getD L 0)) : Nat) : Int) +
        (IGRAPH_POPCOUNT ((popcount_mask ub u &&& (words a).getD L 0) &&&
          (popcount_mask ub u &&& (words b).getD L 0)) : Nat) =
        (IGRAPH_POPCOUNT (popcount_mask ub u &&& (words a).getD L 0) : Nat) +
          (IGRAPH_POPCOUNT (popcount_mask ub u &&& (words b).getD L 0) : Nat) := by
      exact_mod_cast hlast
    omega

/-- Witness for C20: size 40 (remainder 40, where the mask of the population count is not
the intended one), sources with padding bits set. -/
theorem popcount_inclusion_exclusion_witness :
    (well_formed ⟨40, some [2 ^ 63 + 2 ^ 35 + 5], 1⟩ ∧
      well_formed ⟨40, some [2 ^ 50 + 2 ^ 35 + 20], 1⟩ ∧ well_formed ⟨40, some [0], 1⟩) ∧
    ∃ (u1 n1 : igraph_bitset_t) (pu pn pa pb : Int),
      igraph_bitset_or ⟨40, some [0], 1⟩ ⟨40, some [2 ^ 63 + 2 ^ 35 + 5], 1⟩
        ⟨40, some [2 ^ 50 + 2 ^ 35 + 20], 1⟩ = some u1 ∧
      igraph_bitset_and ⟨40, some [0], 1⟩ ⟨40, some [2 ^ 63 + 2 ^ 35 + 5], 1⟩
        ⟨40, some [2 ^ 50 + 2 ^ 35 + 20], 1⟩ = some n1 ∧
      igraph_bitset_popcount ub_shifted_out u1 = some pu ∧
      igraph_bitset_popcount ub_shifted_out n1 = some pn ∧
      igraph_bitset_popcount ub_shifted_out ⟨40, some [2 ^ 63 + 2 ^ 35 + 5], 1⟩ = some pa ∧
      igraph_bitset_popcount ub_shifted_out ⟨40, some [2 ^ 50 + 2 ^ 35 + 20], 1⟩ = some pb ∧
      pu + pn = pa + pb :=
  ⟨⟨by decide, by decide, by decide⟩,
    popcount_inclusion_exclusion ub_shifted_out ⟨40, some [2 ^ 63 + 2 ^ 35 + 5], 1⟩
      ⟨40, some [2 ^ 50 + 2 ^ 35 + 20], 1⟩ ⟨40, some [0], 1⟩ ⟨40, some [0], 1⟩
      (by decide) (by decide) (by decide) (by decide) rfl rfl rfl⟩

/-! ## Claim on the padding -/

end Bitset
